import Mathlib

/-!
Verification of the Traycer plan/task core: a shallow embedding of the
Plan/Task data model and the operations of `src/services/planService.ts`,
`src/utils/helpers.ts` and the `TracerLite` execution scheduler, together
with proofs and refutations of the specification's testable properties.

Modelling conventions:
* Runtime JavaScript values coming from `JSON.parse` are modelled by the
  inductive type `JVal`; JSON numbers are modelled exactly as a decimal
  mantissa and a power-of-ten exponent.
* Task/plan `status` and `priority` fields are runtime strings in
  JavaScript, so they are modelled as `String`.
* `Date` values are modelled opaquely by their ISO string; `new Date()`
  becomes an explicit `now : String` parameter.
* Thrown exceptions / rejected promises are modelled with `Except`.
* `generateId` (timestamp + randomness) is modelled by explicit
  id-supply parameters.
-/

namespace Traycer

/-- A JavaScript runtime value as produced by `JSON.parse`, plus
`undefVal` for the result of a missed property access. A JSON number is
`num m p`, denoting `m * 10^p`. -/
inductive JVal where
  | null : JVal
  | undefVal : JVal
  | bool (b : Bool) : JVal
  | num (m : Int) (p : Int) : JVal
  | str (s : String) : JVal
  | arr (xs : List JVal) : JVal
  | obj (fields : List (String × JVal)) : JVal

/-- JavaScript truthiness of a `JVal`. -/
def JVal.truthy : JVal → Bool
  | .null => false
  | .undefVal => false
  | .bool b => b
  | .num m _ => m != 0
  | .str s => s != ""
  | .arr _ => true
  | .obj _ => true

/-- Property lookup in a parsed JSON object: later duplicate keys
overwrite earlier ones, as in a JavaScript object literal. -/
def lookupLast (key : String) : List (String × JVal) → Option JVal
  | [] => none
  | (k, v) :: rest =>
    match lookupLast key rest with
    | some r => some r
    | none => if k == key then some v else none

/-- JavaScript property access `j[key]`.  Missing keys and access on
primitives yield `undefined`.  (Access on `null` throws in JS; call
sites that can receive `null` branch on it explicitly before using
`get`.) -/
def JVal.get (j : JVal) (key : String) : JVal :=
  match j with
  | .obj fs => (lookupLast key fs).getD .undefVal
  | _ => .undefVal

/-- Coercion of a runtime value into a string-typed field slot.  (In the
source, a non-string value would be stored as-is by the untyped
assignment; every claim below only exercises the `str` case.) -/
def JVal.toStr : JVal → String
  | .str s => s
  | .bool b => if b then "true" else "false"
  | .null => "null"
  | .undefVal => "undefined"
  | .num m p => toString m ++ "e" ++ toString p
  | .arr _ => ""
  | .obj _ => ""

/-- `v || dflt` for a string-typed slot (JS falsy-default). -/
def jStrD (j : JVal) (d : String) : String :=
  if j.truthy then j.toStr else d

/-- `Array.isArray(v) ? v : []`, coerced into a string list slot. -/
def jArrStrD (j : JVal) : List String :=
  match j with
  | .arr xs => xs.map JVal.toStr
  | _ => []

/-- `['low','medium','high'].includes(v) ? v : 'medium'`. -/
def jPriorityD (j : JVal) : String :=
  match j with
  | .str s => if s == "low" || s == "medium" || s == "high" then s else "medium"
  | _ => "medium"

/-- A task, from `src/types.ts`.  `status` is one of `"pending"`,
`"in-progress"`, `"completed"`, `"failed"`; `priority` one of `"low"`,
`"medium"`, `"high"`; both are runtime strings. -/
structure Task where
  id : String
  title : String
  description : String
  files : List String
  dependencies : List String
  status : String
  estimatedTime : String
  priority : String
  code : Option String := none
deriving DecidableEq, Repr

/-- A plan, from `src/types.ts`.  `created`/`updated` are the ISO strings
of the `Date` values. -/
structure Plan where
  id : String
  title : String
  description : String
  tasks : List Task
  created : String
  updated : String
  status : String
deriving DecidableEq, Repr

/-- The ids of a task list, in order. -/
def idsOf (tasks : List Task) : List String := tasks.map Task.id

/-- `PlanService.removeTask`: in-range index removes the task and strips
its id from every remaining task's dependency list, bumping `updated`;
out-of-range is a no-op returning the plan unchanged. -/
def removeTask (plan : Plan) (taskIndex : Int) (now : String) : Plan :=
  if 0 ≤ taskIndex ∧ taskIndex < plan.tasks.length then
    match plan.tasks.get? taskIndex.toNat with
    | some removedTask =>
      { plan with
        tasks := (plan.tasks.eraseIdx taskIndex.toNat).map
          (fun t => { t with dependencies := t.dependencies.filter (fun depId => depId != removedTask.id) }),
        updated := now }
    | none => plan
  else plan

/-- In-place mutation `task.status = status` of the first task found by
`plan.tasks.find(t => t.id === taskId)`. -/
def setFirstStatus (taskId status : String) : List Task → List Task
  | [] => []
  | t :: ts =>
    if t.id == taskId then { t with status := status } :: ts
    else t :: setFirstStatus taskId status ts

/-- `PlanService.updateTaskStatus`: sets the status of the task found by
id and bumps `updated`; unknown id is a no-op returning the plan
unchanged. -/
def updateTaskStatus (plan : Plan) (taskId : String) (status : String) (now : String) : Plan :=
  match plan.tasks.find? (fun t => t.id == taskId) with
  | some _ => { plan with tasks := setFirstStatus taskId status plan.tasks, updated := now }
  | none => plan

/-- `helpers.canExecuteTask`: true when the task has no dependencies, or
every dependency id resolves (by first match) to a task whose status is
`"completed"`. -/
def canExecuteTask (task : Task) (plan : Plan) : Bool :=
  if task.dependencies.length == 0 then true
  else task.dependencies.all (fun depId =>
    match plan.tasks.find? (fun t => t.id == depId) with
    | some dependentTask => dependentTask.status == "completed"
    | none => false)

/-- `helpers.getExecutableTasks`: the pending tasks whose dependencies
are all completed. -/
def getExecutableTasks (plan : Plan) : List Task :=
  plan.tasks.filter (fun task => task.status == "pending" && canExecuteTask task plan)

/-- `PlanService.getExecutableTaskIds`: same selection computed with a
set of completed ids, returning ids. -/
def getExecutableTaskIds (plan : Plan) : List String :=
  let pendingTasks := plan.tasks.filter (fun task => task.status == "pending")
  (pendingTasks.filter (fun task =>
    task.dependencies.all (fun depId =>
      (plan.tasks.filter (fun t => t.status == "completed")).any (fun t => t.id == depId)))).map Task.id

/-- `PlanService.getTasksByStatus`. -/
def getTasksByStatus (plan : Plan) (status : String) : List Task :=
  plan.tasks.filter (fun task => task.status == status)

/-! ### JSON parsing (`JSON.parse` and the `/\{[\s\S]*\}/` regex) -/

/-- Skip JSON whitespace. -/
def skipWs : List Char → List Char
  | [] => []
  | c :: rest =>
    if c = ' ' ∨ c = '\t' ∨ c = '\n' ∨ c = '\r' then skipWs rest else c :: rest

/-- Digit run at the front of the input. -/
def digitSpan (cs : List Char) : List Char × List Char :=
  cs.span Char.isDigit

/-- Decimal value of a digit list. -/
def digitsToNat (ds : List Char) : Nat :=
  ds.foldl (fun n c => 10 * n + (c.toNat - 48)) 0

/-- Value of a hex digit, if any. -/
def hexVal (c : Char) : Option Nat :=
  if c.isDigit then some (c.toNat - 48)
  else if 'a' ≤ c ∧ c ≤ 'f' then some (c.toNat - 87)
  else if 'A' ≤ c ∧ c ≤ 'F' then some (c.toNat - 55)
  else none

/-- Parse a JSON number (after the leading sign/digit has been sighted):
optional minus, digits, optional fraction, optional exponent, yielding
mantissa and power of ten. -/
def parseNum (cs : List Char) : Option (JVal × List Char) :=
  let (neg, cs1) := match cs with
    | '-' :: rest => (true, rest)
    | _ => (false, cs)
  let (ints, cs2) := digitSpan cs1
  if ints.isEmpty then none else
  let (fracs, cs3) := match cs2 with
    | '.' :: rest =>
      let (ds, r) := digitSpan rest
      (some ds, r)
    | _ => (none, cs2)
  match fracs with
  | some [] => none
  | _ =>
  let fracDigits := fracs.getD []
  let (expOk, expVal, cs4) := match cs3 with
    | 'e' :: rest | 'E' :: rest =>
      let (esign, rest1) : Bool × List Char := match rest with
        | '+' :: r => (false, r)
        | '-' :: r => (true, r)
        | _ => (false, rest)
      let (eds, r2) := digitSpan rest1
      if eds.isEmpty then (false, (0 : Int), r2)
      else (true, if esign then -(digitsToNat eds : Int) else (digitsToNat eds : Int), r2)
    | _ => (true, 0, cs3)
  if !expOk then none else
  let mantissa : Int := digitsToNat (ints ++ fracDigits)
  some (.num (if neg then -mantissa else mantissa) (expVal - fracDigits.length), cs4)

mutual

/-- Parse one JSON value. `fuel` only serves termination; the top-level
entry point supplies enough fuel for any input of its length. -/
def parseJ : Nat → List Char → Option (JVal × List Char)
  | 0, _ => none
  | fuel + 1, cs =>
    match skipWs cs with
    | [] => none
    | 'n' :: 'u' :: 'l' :: 'l' :: rest => some (.null, rest)
    | 't' :: 'r' :: 'u' :: 'e' :: rest => some (.bool true, rest)
    | 'f' :: 'a' :: 'l' :: 's' :: 'e' :: rest => some (.bool false, rest)
    | '"' :: rest => (parseStrBody fuel rest []).map (fun p => (.str p.1, p.2))
    | '[' :: rest =>
      (match skipWs rest with
       | ']' :: r2 => some (.arr [], r2)
       | other => (parseElems fuel other).map (fun p => (.arr p.1, p.2)))
    | '{' :: rest =>
      (match skipWs rest with
       | '}' :: r2 => some (.obj [], r2)
       | other => (parseMembers fuel other).map (fun p => (.obj p.1, p.2)))
    | c :: rest =>
      if c = '-' ∨ c.isDigit then parseNum (c :: rest) else none

/-- Parse the body of a JSON string after the opening quote. -/
def parseStrBody : Nat → List Char → List Char → Option (String × List Char)
  | 0, _, _ => none
  | _, [], _ => none
  | fuel + 1, c :: rest, acc =>
    if c = '"' then some (String.mk acc.reverse, rest)
    else if c = '\\' then
      match rest with
      | [] => none
      | e :: rest2 =>
        if e = '"' ∨ e = '\\' ∨ e = '/' then parseStrBody fuel rest2 (e :: acc)
        else if e = 'b' then parseStrBody fuel rest2 ('\x08' :: acc)
        else if e = 'f' then parseStrBody fuel rest2 ('\x0c' :: acc)
        else if e = 'n' then parseStrBody fuel rest2 ('\n' :: acc)
        else if e = 'r' then parseStrBody fuel rest2 ('\r' :: acc)
        else if e = 't' then parseStrBody fuel rest2 ('\t' :: acc)
        else if e = 'u' then
          match rest2 with
          | h1 :: h2 :: h3 :: h4 :: rest3 =>
            match hexVal h1, hexVal h2, hexVal h3, hexVal h4 with
            | some a, some b, some c1, some d =>
              parseStrBody fuel rest3 (Char.ofNat (((a * 16 + b) * 16 + c1) * 16 + d) :: acc)
            | _, _, _, _ => none
          | _ => none
        else none
    else if c.toNat < 32 then none
    else parseStrBody fuel rest (c :: acc)

/-- Parse nonempty comma-separated array elements, up to `]`. -/
def parseElems : Nat → List Char → Option (List JVal × List Char)
  | 0, _ => none
  | fuel + 1, cs => do
    let (v, rest) ← parseJ fuel cs
    match skipWs rest with
    | ',' :: r2 => (parseElems fuel r2).map (fun p => (v :: p.1, p.2))
    | ']' :: r2 => some ([v], r2)
    | _ => none

/-- Parse nonempty comma-separated object members, up to `}`. -/
def parseMembers : Nat → List Char → Option (List (String × JVal) × List Char)
  | 0, _ => none
  | fuel + 1, cs =>
    match skipWs cs with
    | '"' :: rest => do
      let (k, rest1) ← parseStrBody fuel rest []
      match skipWs rest1 with
      | ':' :: rest2 => do
        let (v, rest3) ← parseJ fuel rest2
        match skipWs rest3 with
        | ',' :: r2 => (parseMembers fuel r2).map (fun p => ((k, v) :: p.1, p.2))
        | '}' :: r2 => some ([(k, v)], r2)
        | _ => none
      | _ => none
    | _ => none

end

/-- `JSON.parse`: parse one value, require only whitespace after it. -/
def jsonParse (s : String) : Option JVal :=
  match parseJ (4 * s.data.length + 8) s.data with
  | some (v, rest) => if skipWs rest = [] then some v else none
  | none => none

/-- The regex `/\{[\s\S]*\}/` applied to `s`: the substring from the
first `{` to the last `}` when that span is nonempty. -/
def firstLastSlice (s : String) : Option String :=
  match s.data.findIdx? (fun c => c = '{') with
  | none => none
  | some i =>
    match s.data.reverse.findIdx? (fun c => c = '}') with
    | none => none
    | some rj =>
      let j := s.data.length - 1 - rj
      if i < j then some (String.mk ((s.data.drop i).take (j - i + 1))) else none

/-- `helpers.extractJsonFromResponse`: parse the brace-delimited match if
there is one, otherwise the whole response; any parse failure yields
`null` (modelled as `none`). -/
def extractJsonFromResponse (response : String) : Option JVal :=
  match firstLastSlice response with
  | some m => jsonParse m
  | none => jsonParse response

/-! ### Plan building (`parsePlanResponse`, `processTasks`, fallback) -/

/-- One step of `PlanService.processTasks`: coerce a raw task value into
a `Task`, applying the defaulting rules of the source. Property access on
`null`/`undefined` throws, modelled as `Except.error` (per-task
`validateTask` only logs warnings and is omitted). -/
def processTask (genId : Nat → String) (idx : Nat) (taskData : JVal) : Except Unit Task :=
  match taskData with
  | .null => .error ()
  | .undefVal => .error ()
  | _ => .ok {
      id := jStrD (taskData.get "id") (genId idx),
      title := jStrD (taskData.get "title") ("Task " ++ toString (idx + 1)),
      description := jStrD (taskData.get "description") "No description provided",
      files := jArrStrD (taskData.get "files"),
      dependencies := jArrStrD (taskData.get "dependencies"),
      status := "pending",
      estimatedTime := jStrD (taskData.get "estimatedTime") "30 minutes",
      priority := jPriorityD (taskData.get "priority"),
      code := none }

/-- `PlanService.processTasks` from index `i` on. -/
def processTasksFrom (genId : Nat → String) : Nat → List JVal → Except Unit (List Task)
  | _, [] => .ok []
  | i, j :: rest => do
    let t ← processTask genId i j
    let ts ← processTasksFrom genId (i + 1) rest
    .ok (t :: ts)

/-- `PlanService.processTasks`. -/
def processTasks (genId : Nat → String) (tasksData : List JVal) : Except Unit (List Task) :=
  processTasksFrom genId 0 tasksData

/-- The expression `planData.tasks || []` as consumed by
`processTasks` (whose `.map` throws on a truthy non-array). -/
def tasksSlot (planData : JVal) : Except Unit (List JVal) :=
  let tj := planData.get "tasks"
  if tj.truthy then
    match tj with
    | .arr xs => .ok xs
    | _ => .error ()
  else .ok []

/-- `PlanService.createFallbackPlan`. -/
def createFallbackPlan (planGenId taskGenId : String) (requirements : String) (now : String) : Plan :=
  { id := planGenId,
    title := "Manual Implementation Plan",
    description := requirements,
    tasks := [{ id := taskGenId,
                title := "Implement requirements",
                description := requirements,
                files := [],
                dependencies := [],
                status := "pending",
                estimatedTime := "60 minutes",
                priority := "high",
                code := none }],
    created := now, updated := now, status := "draft" }

/-- `PlanService.parsePlanResponse` (the plan builder): extract JSON,
throw (→ fallback) on a falsy result, otherwise build the plan with
defaults; any exception inside (null task entries, non-array `tasks`)
also lands in the fallback. `validatePlan` only logs warnings and does
not alter the result. -/
def parsePlanResponse (planGenId taskGenId : String) (genId : Nat → String) (now : String)
    (planResponse requirements : String) : Plan :=
  match extractJsonFromResponse planResponse with
  | none => createFallbackPlan planGenId taskGenId requirements now
  | some planData =>
    if planData.truthy then
      match (tasksSlot planData).bind (processTasks genId) with
      | .ok ts =>
        { id := planGenId,
          title := jStrD (planData.get "title") "Generated Implementation Plan",
          description := jStrD (planData.get "description") requirements,
          tasks := ts,
          created := now, updated := now, status := "draft" }
      | .error _ => createFallbackPlan planGenId taskGenId requirements now
    else createFallbackPlan planGenId taskGenId requirements now

/-! ### Serialization (`exportPlan` / `importPlan`) -/

/-- The JSON value of `JSON.stringify(task)`: fields in declaration
order, `Date`s as ISO strings, the optional `code` key omitted when
absent. -/
def taskJson (t : Task) : JVal :=
  .obj ([("id", .str t.id), ("title", .str t.title), ("description", .str t.description),
    ("files", .arr (t.files.map JVal.str)),
    ("dependencies", .arr (t.dependencies.map JVal.str)),
    ("status", .str t.status), ("estimatedTime", .str t.estimatedTime),
    ("priority", .str t.priority)]
    ++ (match t.code with | some c => [("code", .str c)] | none => []))

/-- The JSON value of `exportPlan(plan) = JSON.stringify(plan)`.  Since
`JSON.parse ∘ JSON.stringify` is the identity embedding of a plan into
JSON values, reimporting `exportPlan plan` consumes exactly this value. -/
def exportPlanJson (p : Plan) : JVal :=
  .obj [("id", .str p.id), ("title", .str p.title), ("description", .str p.description),
    ("tasks", .arr (p.tasks.map taskJson)),
    ("created", .str p.created), ("updated", .str p.updated), ("status", .str p.status)]

/-- The body of `PlanService.importPlan` on the already-parsed JSON
value; any exception (property access on `null`, `.map` on a non-array)
is caught and rethrown as `"Failed to import plan"`. -/
def importPlanData (planGenId : String) (genId : Nat → String) (now : String)
    (planData : JVal) : Except String Plan :=
  match planData with
  | .null => .error "Failed to import plan"
  | .undefVal => .error "Failed to import plan"
  | _ =>
    match (tasksSlot planData).bind (processTasks genId) with
    | .error _ => .error "Failed to import plan"
    | .ok ts => .ok {
        id := jStrD (planData.get "id") planGenId,
        title := jStrD (planData.get "title") "Imported Plan",
        description := jStrD (planData.get "description") "Imported plan",
        tasks := ts,
        created := jStrD (planData.get "created") now,
        updated := now,
        status := jStrD (planData.get "status") "draft" }

/-- `PlanService.importPlan`: `JSON.parse` failure is caught and
rethrown as a hard failure (rejected promise), never a fallback plan. -/
def importPlan (planGenId : String) (genId : Nat → String) (now : String)
    (planJson : String) : Except String Plan :=
  match jsonParse planJson with
  | none => .error "Failed to import plan"
  | some planData => importPlanData planGenId genId now planData

/-! ### Task modification (`modifyTask`) -/

/-- Whether a parsed JSON value has an own property `key` (only objects
contribute spreadable `Task` keys). -/
def JVal.hasKey (j : JVal) (key : String) : Bool :=
  match j with
  | .obj fs => (lookupLast key fs).isSome
  | _ => false

/-- The spread `{...old, ...modifiedTask, id: old.id}`: every known task
key present on the replacement overrides the original, except `id`,
which is always the original's. (Non-string runtime values are coerced
into the typed slots; no claim depends on those corners.) -/
def mergeTask (old : Task) (j : JVal) : Task :=
  { id := old.id,
    title := if j.hasKey "title" then (j.get "title").toStr else old.title,
    description := if j.hasKey "description" then (j.get "description").toStr else old.description,
    files := if j.hasKey "files" then jArrStrD (j.get "files") else old.files,
    dependencies := if j.hasKey "dependencies" then jArrStrD (j.get "dependencies") else old.dependencies,
    status := if j.hasKey "status" then (j.get "status").toStr else old.status,
    estimatedTime := if j.hasKey "estimatedTime" then (j.get "estimatedTime").toStr else old.estimatedTime,
    priority := if j.hasKey "priority" then (j.get "priority").toStr else old.priority,
    code := if j.hasKey "code" then some (j.get "code").toStr else old.code }

/-- `PlanService.modifyTask`: out-of-range index is an immediate no-op;
otherwise the collaborator `response` is brace-matched and parsed (a
parse failure is caught, keeping the plan unchanged), and the parsed
value is shallow-merged onto the task with `id` preserved. -/
def modifyTask (plan : Plan) (taskIndex : Int) (response : String) (now : String) : Plan :=
  if taskIndex < 0 ∨ (plan.tasks.length : Int) ≤ taskIndex then plan
  else
    match (match firstLastSlice response with
           | some m => jsonParse m
           | none => jsonParse response) with
    | none => plan
    | some modifiedTask =>
      match plan.tasks.get? taskIndex.toNat with
      | some old =>
        { plan with
          tasks := plan.tasks.set taskIndex.toNat (mergeTask old modifiedTask),
          updated := now }
      | none => plan

/-! ### Task graph validation and ordering -/

/-- State of the `detectCircularDependencies` traversal: the permanent
`visited` set, the recursion stack, and the accumulated cycle edges in
push order. -/
structure DState where
  visited : List String
  rstack : List String
  cdeps : List String
deriving DecidableEq, Repr

/-- The cycle-edge descriptor pushed by the source. -/
def edgeStr (a b : String) : String := a ++ " -> " ++ b

/-- The dependency loop of `hasCycle`: on the first dependency whose
recursive check reports a cycle, push the edge and abort with `true`. -/
def depLoopG (hc : String → DState → Bool × DState) (taskId : String) :
    List String → DState → Bool × DState
  | [], st => (false, st)
  | depId :: rest, st =>
    match hc depId st with
    | (true, st1) => (true, { st1 with cdeps := st1.cdeps ++ [edgeStr taskId depId] })
    | (false, st1) => depLoopG hc taskId rest st1

/-- `hasCycle` of `PlanService.detectCircularDependencies`: a recursion
stack hit reports a cycle; on the `true` path the stack entry is *not*
removed (a quirk of the source that later traversals observe). `fuel`
only serves termination and is supplied generously by the caller. -/
def hasCycle (tasks : List Task) : Nat → String → DState → Bool × DState
  | 0, _, st => (false, st)
  | fuel + 1, taskId, st =>
    if taskId ∈ st.rstack then (true, st)
    else if taskId ∈ st.visited then (false, st)
    else
      let st1 : DState := { visited := taskId :: st.visited, rstack := taskId :: st.rstack, cdeps := st.cdeps }
      match tasks.find? (fun t => t.id == taskId) with
      | some task =>
        match depLoopG (hasCycle tasks fuel) taskId task.dependencies st1 with
        | (true, st2) => (true, st2)
        | (false, st2) => (false, { st2 with rstack := st2.rstack.erase taskId })
      | none => (false, { st1 with rstack := st1.rstack.erase taskId })

/-- Every id mentioned by the task list (task ids and dependency ids):
the traversals only ever recurse into these. -/
def univIds (tasks : List Task) : List String :=
  tasks.flatMap (fun t => t.id :: t.dependencies)

/-- Fuel that the traversals can never exhaust. -/
def traversalFuel (tasks : List Task) : Nat := (univIds tasks).length + 1

/-- `PlanService.detectCircularDependencies`: depth-first traversal from
each yet-unvisited task, collecting cycle edges. -/
def detectCircularDependencies (tasks : List Task) : List String :=
  (tasks.foldl
    (fun st task => if task.id ∈ st.visited then st else (hasCycle tasks (traversalFuel tasks) task.id st).2)
    ⟨[], [], []⟩).cdeps

/-- State of the `topologicalSort` traversal. -/
structure TState where
  visiting : List String
  visited : List String
  result : List Task
deriving DecidableEq, Repr

/-- `task.dependencies.forEach(depId => visit(depId))`. -/
def visitListG (v : String → TState → TState) : List String → TState → TState
  | [], st => st
  | d :: rest, st => visitListG v rest (v d st)

/-- `taskMap.get(taskId)` where `taskMap = new Map(tasks.map(t => [t.id, t]))`:
the last binding per id wins. -/
def taskMapGet (tasks : List Task) (taskId : String) : Option Task :=
  tasks.reverse.find? (fun t => t.id == taskId)

/-- `visit` of `TracerLite.topologicalSort`: post-order emission with
cycle tolerance. When the id has no task, the id stays in `visiting`
forever (a quirk of the source). -/
def visit (tasks : List Task) : Nat → String → TState → TState
  | 0, _, st => st
  | fuel + 1, taskId, st =>
    if taskId ∈ st.visiting then st
    else if taskId ∈ st.visited then st
    else
      let st1 : TState := { st with visiting := taskId :: st.visiting }
      match taskMapGet tasks taskId with
      | some task =>
        let st2 := visitListG (visit tasks fuel) task.dependencies st1
        { visiting := st2.visiting.erase taskId,
          visited := taskId :: st2.visited,
          result := st2.result ++ [task] }
      | none => st1

/-- `TracerLite.topologicalSort`. -/
def topologicalSort (tasks : List Task) : List Task :=
  (tasks.foldl (fun st task => visit tasks (traversalFuel tasks) task.id st) ⟨[], [], []⟩).result

/-- The dependency edge relation of a task list: `a` depends on `b`. -/
def depEdge (tasks : List Task) (a b : String) : Prop :=
  ∃ t ∈ tasks, t.id = a ∧ b ∈ t.dependencies

/-- Acyclicity of the dependency graph. -/
def Acyclic (tasks : List Task) : Prop :=
  ∀ a, ¬ Relation.TransGen (depEdge tasks) a a

/-- A two-task cycle between distinct ids `a` and `b`. -/
def TwoCycle (tasks : List Task) (a b : String) : Prop :=
  a ≠ b ∧ (∃ t ∈ tasks, t.id = a ∧ b ∈ t.dependencies)
    ∧ (∃ t ∈ tasks, t.id = b ∧ a ∈ t.dependencies)

/-- The well-formedness facts about a task under which the import
defaulting rules are inert: nonempty string fields (JS-truthy) and a
valid priority. -/
def goodTask (t : Task) : Prop :=
  t.id ≠ "" ∧ t.title ≠ "" ∧ t.description ≠ "" ∧ t.estimatedTime ≠ ""
    ∧ t.priority ∈ (["low", "medium", "high"] : List String)

instance (t : Task) : Decidable (goodTask t) := by
  unfold goodTask
  infer_instance


/-! ### Proof infrastructure for the traversal invariants -/

/-- The number of relevant ids that the `topologicalSort` traversal has
not yet reached. -/
def tMeasure (tasks : List Task) (st : TState) : Nat :=
  ((univIds tasks).dedup.filter (fun x => decide (x ∉ st.visiting ∧ x ∉ st.visited))).length

/-- Well-formedness of a `topologicalSort` traversal state. -/
def TWF (tasks : List Task) (st : TState) : Prop :=
  st.visiting.Nodup
  ∧ (∀ x ∈ st.visiting, x ∉ st.visited)
  ∧ (∀ t ∈ st.result, t ∈ tasks)
  ∧ (idsOf st.result).Nodup
  ∧ (∀ x : String, x ∈ st.visited ↔ x ∈ idsOf st.result)

/-- A task's dependency ids among the plan's task ids all lie in `done`. -/
def depsSatisfied (tasks : List Task) (done : List String) (t : Task) : Prop :=
  ∀ d ∈ t.dependencies, d ∈ idsOf tasks → d ∈ done

/-- The emitted tasks, read left to right with `done` accumulating ids,
each have their (resolvable) dependencies emitted earlier. -/
def resOrdAux (tasks : List Task) : List String → List Task → Prop
  | _, [] => True
  | done, t :: rest => depsSatisfied tasks done t ∧ resOrdAux tasks (done ++ [t.id]) rest

/-- Every emitted task comes strictly after its resolvable dependencies. -/
def resOrd (tasks : List Task) (res : List Task) : Prop := resOrdAux tasks [] res

/-- Well-formedness of a `detectCircularDependencies` traversal state. -/
def DWF (st : DState) : Prop :=
  st.rstack.Nodup ∧ ∀ x ∈ st.rstack, x ∈ st.visited

/-- An id whose traversal frame has completed: visited and off the
recursion stack. -/
def dCompleted (st : DState) (x : String) : Prop :=
  x ∈ st.visited ∧ x ∉ st.rstack

/-- While no cycle edge has been pushed, a completed member of the pair
has had its partner visited (its dependency loop reached it). -/
def PsiInv (a b : String) (st : DState) : Prop :=
  st.cdeps = [] → (dCompleted st a → b ∈ st.visited) ∧ (dCompleted st b → a ∈ st.visited)

/-- While no cycle edge has been pushed, the two members of a mutual
dependency pair are never both completed. -/
def ChiInv (a b : String) (st : DState) : Prop :=
  st.cdeps = [] → ¬ (dCompleted st a ∧ dCompleted st b)

/-- The number of relevant ids not yet visited by the cycle detector. -/
def dMeasure (tasks : List Task) (st : DState) : Nat :=
  ((univIds tasks).dedup.filter (fun x => decide (x ∉ st.visited))).length

/-! ### Concrete instances used by counterexamples and witnesses -/

/-- A well-formed task with the given id, dependencies and status. -/
def mkTask (i : String) (deps : List String) (status : String) : Task :=
  { id := i, title := "Title " ++ i, description := "Desc " ++ i, files := [],
    dependencies := deps, status := status, estimatedTime := "30 minutes",
    priority := "medium", code := none }

/-- A well-formed two-task plan: `t1` completed, `t2` pending on `t1`. -/
def samplePlan : Plan :=
  { id := "plan-1", title := "P", description := "D",
    tasks := [mkTask "t1" [] "completed", mkTask "t2" ["t1"] "pending"],
    created := "2024-01-01", updated := "2024-01-02", status := "draft" }

/-- Plan whose single task is `completed`, exercising the status reset of
the export/import round trip. -/
def c1plan : Plan :=
  { id := "plan-c1", title := "T", description := "D",
    tasks := [{ id := "t1", title := "A", description := "d", files := ["f.ts"],
                dependencies := ["t0"], status := "completed",
                estimatedTime := "30 minutes", priority := "medium", code := none }],
    created := "2024-01-01", updated := "2024-01-02", status := "draft" }

/-- Four distinct-id tasks: the cycle `C ↔ D` is found first and leaves
`C`, `D` on the recursion stack, after which the cycle `A ↔ B` is never
entered (both `A` and `B` abort on their dependency `C`). -/
def c4tasks : List Task :=
  [mkTask "C" ["D"] "pending", mkTask "D" ["C"] "pending",
   mkTask "A" ["C", "B"] "pending", mkTask "B" ["C", "A"] "pending"]

/-- A two-task cycle by itself. -/
def c4pair : List Task := [mkTask "A" ["B"] "pending", mkTask "B" ["A"] "pending"]

/-- An acyclic three-task list (`t3` after `t1`, `t2`; `t2` after `t1`). -/
def c3tasks : List Task :=
  [mkTask "t3" ["t1", "t2"] "pending", mkTask "t1" [] "pending", mkTask "t2" ["t1"] "pending"]

/-- Plan for the executable-set witness: `a` completed, `b` pending on
`a` (executable), `c` failed, `d` pending on `c` (not executable),
`e` pending with no dependencies (executable). -/
def c8plan : Plan :=
  { id := "plan-c8", title := "P", description := "D",
    tasks := [mkTask "a" [] "completed", mkTask "b" ["a"] "pending",
              mkTask "c" [] "failed", mkTask "d" ["c"] "pending",
              mkTask "e" [] "pending"],
    created := "2024-01-01", updated := "2024-01-02", status := "executing" }

/-! ## Theorems -/

/-- **C5.** For every plan `p` and every in-range index `i`, after
`removeTask(p, i)` the removed task's id does not occur in the
`dependencies` list of any task remaining in the plan. -/
theorem c5_remove_strips_dependencies (plan : Plan) (i : Int) (now : String) (removed : Task)
    (h0 : 0 ≤ i) (h1 : i < (plan.tasks.length : Int))
    (hget : plan.tasks.get? i.toNat = some removed) :
    ∀ t ∈ (removeTask plan i now).tasks, removed.id ∉ t.dependencies := by
  intro t ht
  unfold removeTask at ht
  rw [if_pos ⟨h0, h1⟩, hget] at ht
  simp only [List.mem_map] at ht
  obtain ⟨u, _, rfl⟩ := ht
  simp [List.mem_filter]

/-- Witness for C5 on a concrete plan and index. -/
theorem c5_witness :
    ((0 : Int) ≤ 0 ∧ (0 : Int) < (samplePlan.tasks.length : Int) ∧
      samplePlan.tasks.get? (Int.toNat 0) = some (mkTask "t1" [] "completed")) ∧
    ∀ t ∈ (removeTask samplePlan 0 "now").tasks, (mkTask "t1" [] "completed").id ∉ t.dependencies :=
  ⟨⟨by decide, by decide, by decide⟩,
    c5_remove_strips_dependencies samplePlan 0 "now" _ (by decide) (by decide) (by decide)⟩

/-- **C6.** For every plan, every index and every collaborator response
(whatever fields its payload carries, including an `id` field),
`modifyTask` leaves the id of the task at that index exactly as it was:
only non-id fields are merged, and parse failures keep the task
unchanged. -/
theorem c6_modify_preserves_id (plan : Plan) (taskIndex : Int) (response now : String) :
    ((modifyTask plan taskIndex response now).tasks.get? taskIndex.toNat).map Task.id
      = (plan.tasks.get? taskIndex.toNat).map Task.id := by
  unfold modifyTask
  split
  · rfl
  next hrange =>
    cases hparse : (match firstLastSlice response with
        | some m => jsonParse m
        | none => jsonParse response) with
    | none => rfl
    | some mj =>
      cases hget : plan.tasks.get? taskIndex.toNat with
      | none => simp only [hget]
      | some old =>
        simp only [hget]
        rw [List.get?_eq_getElem?, List.getElem?_set_self', ← List.get?_eq_getElem?, hget]
        rfl

/-- **C7.** For every plan: `modifyTask` and `removeTask` with an
out-of-range index, and `updateTaskStatus` with an unknown task id, are
each a no-op returning the plan with every field (tasks, statuses, the
`updated` timestamp) unchanged. -/
theorem c7_invalid_reference_noop (plan : Plan) (now : String) :
    (∀ (taskIndex : Int) (response : String),
        (taskIndex < 0 ∨ (plan.tasks.length : Int) ≤ taskIndex) →
        modifyTask plan taskIndex response now = plan)
    ∧ (∀ taskIndex : Int,
        ¬ (0 ≤ taskIndex ∧ taskIndex < (plan.tasks.length : Int)) →
        removeTask plan taskIndex now = plan)
    ∧ (∀ taskId status : String, taskId ∉ idsOf plan.tasks →
        updateTaskStatus plan taskId status now = plan) := by
  refine ⟨?_, ?_, ?_⟩
  · intro i r h
    unfold modifyTask
    rw [if_pos h]
  · intro i h
    unfold removeTask
    rw [if_neg h]
  · intro tid s h
    unfold updateTaskStatus
    have hnone : plan.tasks.find? (fun t => t.id == tid) = none := by
      rw [List.find?_eq_none]
      intro t ht
      simp only [beq_iff_eq]
      intro heq
      exact h (heq ▸ List.mem_map_of_mem Task.id ht)
    rw [hnone]

/-- Witness for C7 on a concrete plan with out-of-range indices and an
unknown id. -/
theorem c7_witness :
    (((5 : Int) < 0 ∨ (samplePlan.tasks.length : Int) ≤ 5) ∧
      ¬ ((0 : Int) ≤ -1 ∧ (-1 : Int) < (samplePlan.tasks.length : Int)) ∧
      "zz" ∉ idsOf samplePlan.tasks) ∧
    modifyTask samplePlan 5 "resp" "n" = samplePlan ∧
    removeTask samplePlan (-1) "n" = samplePlan ∧
    updateTaskStatus samplePlan "zz" "completed" "n" = samplePlan :=
  ⟨⟨by decide, by decide, by decide⟩,
    (c7_invalid_reference_noop samplePlan "n").1 5 "resp" (by decide),
    (c7_invalid_reference_noop samplePlan "n").2.1 (-1) (by decide),
    (c7_invalid_reference_noop samplePlan "n").2.2 "zz" "completed" (by decide)⟩

/-- Mapping the slot coercion over serialized strings is the identity. -/
theorem map_toStr_str (l : List String) :
    List.map (JVal.toStr ∘ JVal.str) l = l := by
  induction l with
  | nil => rfl
  | cons a l ih => simpa [JVal.toStr] using ih

/-- `processTasks` on a serialized task reproduces the task except that
`status` is forced back to `"pending"` and the `code` artifact is
dropped. -/
theorem processTask_taskJson (genId : Nat → String) (i : Nat) (t : Task)
    (hid : t.id ≠ "") (hti : t.title ≠ "") (hde : t.description ≠ "") (het : t.estimatedTime ≠ "")
    (hpr : t.priority ∈ (["low", "medium", "high"] : List String)) :
    processTask genId i (taskJson t) = .ok { t with status := "pending", code := none } := by
  have hprv : jPriorityD (.str t.priority) = t.priority := by
    rcases (by simpa using hpr : t.priority = "low" ∨ t.priority = "medium" ∨ t.priority = "high")
      with h | h | h <;> rw [h] <;> rfl
  cases hc : t.code with
  | none =>
    simp [taskJson, processTask, JVal.get, lookupLast, jStrD, JVal.truthy, JVal.toStr,
      jArrStrD, hid, hti, hde, het, hprv, hc, List.map_map, map_toStr_str]
  | some c =>
    simp [taskJson, processTask, JVal.get, lookupLast, jStrD, JVal.truthy, JVal.toStr,
      jArrStrD, hid, hti, hde, het, hprv, hc, List.map_map, map_toStr_str]

/-- List version of `processTask_taskJson`. -/
theorem processTasksFrom_map_taskJson (genId : Nat → String) :
    ∀ (tasks : List Task) (i : Nat), (∀ t ∈ tasks, goodTask t) →
      processTasksFrom genId i (tasks.map taskJson)
        = .ok (tasks.map (fun t => { t with status := "pending", code := none })) := by
  intro tasks
  induction tasks with
  | nil => intro i _; rfl
  | cons t ts ih =>
    intro i h
    obtain ⟨h1, h2, h3, h4, h5⟩ := h t (List.mem_cons_self t ts)
    have ht := processTask_taskJson genId i t h1 h2 h3 h4 h5
    have hts := ih (i + 1) (fun u hu => h u (List.mem_cons_of_mem t hu))
    simp [processTasksFrom, ht, hts, Bind.bind, Except.bind]

/-- **C1 (amended).** For every plan with JS-truthy string fields and
valid priorities, reimporting the export succeeds and yields the same
plan — same task ids, same dependency edges, `updated` refreshed —
except that every task's status is reset to `"pending"` (statuses are
*not* round-tripped: `processTasks` forces `pending` on import) and any
attached `code` artifact is dropped. -/
theorem c1_roundtrip_amended (p : Plan) (planGenId : String) (genId : Nat → String) (now : String)
    (hid : p.id ≠ "") (hti : p.title ≠ "") (hde : p.description ≠ "")
    (hst : p.status ≠ "") (hcr : p.created ≠ "")
    (htasks : ∀ t ∈ p.tasks, goodTask t) :
    importPlanData planGenId genId now (exportPlanJson p)
      = .ok { p with updated := now,
                     tasks := p.tasks.map (fun t => { t with status := "pending", code := none }) } := by
  have hpt := processTasksFrom_map_taskJson genId p.tasks 0 htasks
  simp [importPlanData, exportPlanJson, tasksSlot, JVal.get, lookupLast, JVal.truthy,
    processTasks, hpt, jStrD, JVal.toStr, hid, hti, hde, hst, hcr, Except.bind]

/-- **C1 (counterexample).** Reimporting the export of the concrete plan
whose one task is `completed` yields that task with status `"pending"`:
the round trip does *not* preserve per-task status values, so more than
the `updated` timestamp differs. -/
theorem c1_counterexample_status_reset :
    (importPlanData "gp" (fun _ => "gt") "now9" (exportPlanJson c1plan)).map
        (fun q => q.tasks.map Task.status) = .ok ["pending"]
      ∧ c1plan.tasks.map Task.status = ["completed"] := by
  exact ⟨rfl, rfl⟩

/-- Witness for the amended C1 on the concrete plan. -/
theorem c1_witness :
    (c1plan.id ≠ "" ∧ c1plan.title ≠ "" ∧ c1plan.description ≠ ""
      ∧ c1plan.status ≠ "" ∧ c1plan.created ≠ "" ∧ ∀ t ∈ c1plan.tasks, goodTask t) ∧
    importPlanData "gp" (fun _ => "gt") "now9" (exportPlanJson c1plan)
      = .ok { c1plan with
                updated := "now9",
                tasks := c1plan.tasks.map (fun t => { t with status := "pending", code := none }) } :=
  ⟨⟨by decide, by decide, by decide, by decide, by decide, by decide⟩,
    c1_roundtrip_amended c1plan "gp" (fun _ => "gt") "now9"
      (by decide) (by decide) (by decide) (by decide) (by decide) (by decide)⟩

/-- The task list produced by a successful `processTasks` has exactly
one task per raw entry. -/
theorem processTasksFrom_ok_length (genId : Nat → String) :
    ∀ (js : List JVal) (i : Nat) (ts : List Task),
      processTasksFrom genId i js = .ok ts → ts.length = js.length := by
  intro js
  induction js with
  | nil =>
    intro i ts h
    cases h
    rfl
  | cons j rest ih =>
    intro i ts h
    cases hj : processTask genId i j with
    | error e => rw [processTasksFrom, hj] at h; cases h
    | ok t =>
      rw [processTasksFrom, hj] at h
      cases hrest : processTasksFrom genId (i + 1) rest with
      | error e => rw [hrest] at h; cases h
      | ok ts2 =>
        rw [hrest] at h
        cases h
        simp [ih (i + 1) ts2 hrest]

/-- **C2 (amended).** The plan builder is total: for every input string
it returns a plan without raising. When the extracted JSON is falsy, or
building from it throws (`tasks` a truthy non-array, a `null` task
entry), the fallback single-task plan (exactly one task) is returned;
but when the payload is truthy and its `tasks` slot processes cleanly,
the plan has exactly as many tasks as the raw `tasks` array — which is
*zero* for a payload without tasks, such as the empty object. -/
theorem c2_build_total_amended (planGenId taskGenId : String) (genId : Nat → String)
    (now planResponse requirements : String) :
    (parsePlanResponse planGenId taskGenId genId now planResponse requirements).tasks.length = 1
    ∨ ∃ planData xs,
        extractJsonFromResponse planResponse = some planData ∧ planData.truthy = true
        ∧ tasksSlot planData = .ok xs
        ∧ (parsePlanResponse planGenId taskGenId genId now planResponse requirements).tasks.length
            = xs.length := by
  unfold parsePlanResponse
  cases hext : extractJsonFromResponse planResponse with
  | none => left; rfl
  | some planData =>
    by_cases htr : planData.truthy
    · cases hts : tasksSlot planData with
      | error e =>
        left
        simp [htr, hts, Except.bind, createFallbackPlan]
      | ok xs =>
        cases hpt : processTasks genId xs with
        | error e =>
          left
          simp [htr, hts, hpt, Except.bind, createFallbackPlan]
        | ok ts =>
          right
          refine ⟨planData, xs, rfl, htr, hts, ?_⟩
          simp only [htr, if_true, hts, Except.bind, hpt]
          exact processTasksFrom_ok_length genId xs 0 ts hpt
    · left
      simp [htr, createFallbackPlan]

/-- **C2 (counterexample).** The input `"{}"` — whose extracted JSON is
the empty object — builds a plan with *zero* tasks: `planData` is truthy,
so the fallback is skipped, and `planData.tasks || []` is empty. -/
theorem c2_counterexample_empty_object :
    extractJsonFromResponse "{}" = some (JVal.obj [])
    ∧ (parsePlanResponse "plan-9" "task-9" (fun _ => "gen") "now" "{}" "req").tasks.length = 0 := by
  exact ⟨rfl, rfl⟩

/-- When task ids are unique, the in-place status write on the first
task found by id is the pointwise update at that id. -/
theorem setFirstStatus_eq_map (tid s : String) :
    ∀ tasks : List Task, (idsOf tasks).Nodup → tid ∈ idsOf tasks →
      setFirstStatus tid s tasks
        = tasks.map (fun t => if t.id = tid then { t with status := s } else t) := by
  intro tasks
  induction tasks with
  | nil => intro _ hmem; exact absurd hmem (by simp [idsOf])
  | cons t ts ih =>
    intro hnd hmem
    have hnd' := hnd
    rw [idsOf, List.map_cons, List.nodup_cons] at hnd'
    by_cases h : t.id = tid
    · have hrest : ∀ u ∈ ts, u.id ≠ tid := by
        intro u hu heq
        exact hnd'.1 (h ▸ heq ▸ List.mem_map_of_mem Task.id hu)
      have : ts.map (fun t => if t.id = tid then { t with status := s } else t) = ts := by
        rw [List.map_congr_left (g := id) (fun u hu => by simp [hrest u hu]), List.map_id]
      simp [setFirstStatus, h, this]
    · have hmem' : tid ∈ idsOf ts := by
        rcases (by simpa [idsOf] using hmem : tid = t.id ∨ ∃ a ∈ ts, a.id = tid) with h1 | ⟨a, ha, haid⟩
        · exact absurd h1.symm h
        · exact haid ▸ List.mem_map_of_mem Task.id ha
      simp [setFirstStatus, h, ih hnd'.2 hmem']

/-- **C10.** For every plan with unique task ids, every id present in
the plan and every status value, `updateTaskStatus` unconditionally sets
that task's status — whatever its current status was, with no lifecycle
transition rule — leaves every other field of the plan and of the other
tasks unchanged, and bumps `updated`. -/
theorem c10_update_status_unconditional (plan : Plan) (taskId status now : String)
    (hnd : (idsOf plan.tasks).Nodup) (hmem : taskId ∈ idsOf plan.tasks)
    (_hs : status ∈ (["pending", "in-progress", "completed", "failed"] : List String)) :
    updateTaskStatus plan taskId status now
      = { plan with updated := now,
                    tasks := plan.tasks.map
                      (fun t => if t.id = taskId then { t with status := status } else t) } := by
  obtain ⟨u, hu, huid⟩ : ∃ u ∈ plan.tasks, u.id = taskId := by
    simpa [idsOf, List.mem_map, eq_comm] using hmem
  cases hfind : plan.tasks.find? (fun t => t.id == taskId) with
  | none =>
    rw [List.find?_eq_none] at hfind
    exact absurd (by simpa using huid) (hfind u hu)
  | some w =>
    unfold updateTaskStatus
    rw [hfind, setFirstStatus_eq_map taskId status plan.tasks hnd hmem]

/-- Witness for C10: the `completed` task `t1` of the sample plan is
reset straight to `pending`. -/
theorem c10_witness :
    ((idsOf samplePlan.tasks).Nodup ∧ "t1" ∈ idsOf samplePlan.tasks ∧
      "pending" ∈ (["pending", "in-progress", "completed", "failed"] : List String)) ∧
    updateTaskStatus samplePlan "t1" "pending" "now3"
      = { samplePlan with updated := "now3",
                          tasks := samplePlan.tasks.map
                            (fun t => if t.id = "t1" then { t with status := "pending" } else t) } :=
  ⟨⟨by decide, by decide, by decide⟩,
    c10_update_status_unconditional samplePlan "t1" "pending" "now3"
      (by decide) (by decide) (by decide)⟩

/-- `canExecuteTask` holds exactly when every dependency id resolves to
a completed task, provided task ids are unique. -/
theorem canExecuteTask_iff (plan : Plan) (hnd : (idsOf plan.tasks).Nodup) (t : Task) :
    canExecuteTask t plan = true
      ↔ ∀ d ∈ t.dependencies, ∃ u ∈ plan.tasks, u.id = d ∧ u.status = "completed" := by
  unfold canExecuteTask
  by_cases hlen : t.dependencies.length == 0
  · rw [if_pos hlen]
    have : t.dependencies = [] := List.length_eq_zero.mp (by simpa using hlen)
    simp [this]
  · rw [if_neg hlen, List.all_eq_true]
    refine forall₂_congr (fun d hd => ?_)
    constructor
    · intro hm
      cases hfind : plan.tasks.find? (fun x => x.id == d) with
      | none => rw [hfind] at hm; exact absurd hm (by simp)
      | some u =>
        rw [hfind] at hm
        exact ⟨u, List.mem_of_find?_eq_some hfind,
          by simpa using List.find?_some hfind, by simpa using hm⟩
    · rintro ⟨u, hu, hid, hst⟩
      cases hfind : plan.tasks.find? (fun x => x.id == d) with
      | none =>
        rw [List.find?_eq_none] at hfind
        exact absurd (by simpa using hid) (hfind u hu)
      | some w =>
        have hw : w ∈ plan.tasks := List.mem_of_find?_eq_some hfind
        have hwid : w.id = d := by simpa using List.find?_some hfind
        have : w = u := List.inj_on_of_nodup_map hnd hw hu (hwid.trans hid.symm)
        simp [this, hst]

/-- **C8.** For every plan with unique task ids, `getExecutableTasks`
returns exactly the tasks whose status is `pending` and each of whose
dependency ids refers to a task of the plan whose status is `completed`;
in particular a pending task with no dependencies is always included and
a pending task with a `failed` (or otherwise non-completed or missing)
dependency never is. The function reads only the plan, so repeated calls
agree. -/
theorem c8_executable_exact (plan : Plan) (hnd : (idsOf plan.tasks).Nodup) :
    ∀ t, t ∈ getExecutableTasks plan
      ↔ t ∈ plan.tasks ∧ t.status = "pending"
        ∧ ∀ d ∈ t.dependencies, ∃ u ∈ plan.tasks, u.id = d ∧ u.status = "completed" := by
  intro t
  unfold getExecutableTasks
  rw [List.mem_filter, Bool.and_eq_true]
  exact and_congr_right (fun _ => and_congr (by simp) (canExecuteTask_iff plan hnd t))

/-- Witness for C8: on the concrete plan, exactly the pending task whose
dependency is completed and the pending task with no dependencies are
returned; the pending task with a failed dependency is not. -/
theorem c8_witness :
    ((idsOf c8plan.tasks).Nodup ∧
      getExecutableTasks c8plan = [mkTask "b" ["a"] "pending", mkTask "e" [] "pending"]) ∧
    ∀ t, t ∈ getExecutableTasks c8plan
      ↔ t ∈ c8plan.tasks ∧ t.status = "pending"
        ∧ ∀ d ∈ t.dependencies, ∃ u ∈ c8plan.tasks, u.id = d ∧ u.status = "completed" :=
  ⟨⟨by decide, by decide⟩, c8_executable_exact c8plan (by decide)⟩

/-- **C9.** For every input string that is not valid JSON, `importPlan`
surfaces a hard failure (a rejected promise carrying
`"Failed to import plan"`) rather than returning any plan. -/
theorem c9_import_invalid_json_fails (planGenId : String) (genId : Nat → String)
    (now planJson : String) (h : jsonParse planJson = none) :
    importPlan planGenId genId now planJson = .error "Failed to import plan" := by
  unfold importPlan
  rw [h]

/-- Witness for C9 on a concrete non-JSON string. -/
theorem c9_witness :
    jsonParse "not valid json" = none ∧
    importPlan "p" (fun n => toString n) "now" "not valid json"
      = .error "Failed to import plan" := by
  have hparse : jsonParse "not valid json" = none := by rfl
  exact ⟨hparse, c9_import_invalid_json_fails "p" (fun n => toString n) "now" _ hparse⟩

/-! ### Graph traversal invariants and the C3/C4 theorems -/

theorem length_filter_le_of_imp (p q : String → Bool) :
    ∀ l : List String, (∀ x ∈ l, q x = true → p x = true) →
      (l.filter q).length ≤ (l.filter p).length := by
  intro l
  induction l with
  | nil => intro _; exact le_refl _
  | cons a l ih =>
    intro h
    have hl := ih (fun x hx => h x (List.mem_cons_of_mem a hx))
    by_cases hq : q a = true
    · have hp := h a (List.mem_cons_self a l) hq
      simp [List.filter_cons, hq, hp, Nat.succ_le_succ hl]
    · simp only [List.filter_cons, Bool.not_eq_true] at *
      rw [if_neg (by simp [hq])]
      by_cases hp : p a = true
      · rw [if_pos (by simp [hp])]
        exact le_trans hl (by simp)
      · rw [if_neg (by simp [hp])]
        exact hl

theorem length_filter_lt_of_imp (p q : String → Bool) :
    ∀ l : List String, (∀ x ∈ l, q x = true → p x = true) →
      ∀ a ∈ l, p a = true → q a = false →
      (l.filter q).length < (l.filter p).length := by
  intro l
  induction l with
  | nil => intro _ a ha; exact absurd ha (List.not_mem_nil a)
  | cons x l ih =>
    intro h a ha hpa hqa
    have hsub : ∀ y ∈ l, q y = true → p y = true := fun y hy => h y (List.mem_cons_of_mem x hy)
    rcases List.mem_cons.mp ha with rfl | hal
    · rw [List.filter_cons, List.filter_cons, if_neg (by simp [hqa]), if_pos (by simp [hpa])]
      exact Nat.lt_succ_of_le (length_filter_le_of_imp p q l hsub)
    · have hlt := ih hsub a hal hpa hqa
      by_cases hqx : q x = true
      · rw [List.filter_cons, List.filter_cons, if_pos (by simp [hqx]),
          if_pos (by simp [h x (List.mem_cons_self x l) hqx])]
        exact Nat.succ_lt_succ hlt
      · rw [List.filter_cons, if_neg (by simp [hqx])]
        by_cases hpx : p x = true
        · rw [List.filter_cons, if_pos (by simp [hpx])]
          exact Nat.lt_succ_of_lt hlt
        · rw [List.filter_cons, if_neg (by simp [hpx])]
          exact hlt

/-- Growing the reached sets does not grow the measure. -/
theorem tMeasure_le_of_subset (tasks : List Task) (st st2 : TState)
    (h : ∀ x : String, x ∈ st.visiting ∨ x ∈ st.visited → x ∈ st2.visiting ∨ x ∈ st2.visited) :
    tMeasure tasks st2 ≤ tMeasure tasks st := by
  apply length_filter_le_of_imp
  intro x _ hx
  simp only [decide_eq_true_eq] at hx ⊢
  constructor
  · intro hv
    exact hx.1 (by_contra fun hnv => by
      rcases h x (by tauto) with h1 | h1
      · exact hnv (False.elim (hx.1 h1))
      · exact hx.2 h1)
  · intro hv
    exact hx.2 (by_contra fun hnv => by
      rcases h x (by tauto) with h1 | h1
      · exact hx.1 h1
      · exact absurd h1 (fun h2 => hx.2 h2))


theorem taskMapGet_some {tasks : List Task} {taskId : String} {task : Task}
    (h : taskMapGet tasks taskId = some task) : task ∈ tasks ∧ task.id = taskId :=
  ⟨List.mem_reverse.mp (List.mem_of_find?_eq_some h), by simpa using List.find?_some h⟩

theorem taskMapGet_none {tasks : List Task} {taskId : String}
    (h : taskMapGet tasks taskId = none) : taskId ∉ idsOf tasks := by
  unfold taskMapGet at h
  rw [List.find?_eq_none] at h
  intro hmem
  obtain ⟨t, ht, hid⟩ := List.mem_map.mp hmem
  exact h t (List.mem_reverse.mpr ht) (by simp [hid])

theorem mem_univIds_of_task {tasks : List Task} {t : Task} (h : t ∈ tasks) :
    t.id ∈ univIds tasks := by
  simp only [univIds, List.mem_flatMap]
  exact ⟨t, h, List.mem_cons_self _ _⟩

theorem mem_univIds_of_dep {tasks : List Task} {t : Task} {d : String}
    (h : t ∈ tasks) (hd : d ∈ t.dependencies) : d ∈ univIds tasks := by
  simp only [univIds, List.mem_flatMap]
  exact ⟨t, h, List.mem_cons_of_mem _ hd⟩

theorem visit_spec (tasks : List Task) :
    ∀ (fuel : Nat) (taskId : String) (st : TState), TWF tasks st →
      TWF tasks (visit tasks fuel taskId st)
      ∧ (∀ x ∈ st.visited, x ∈ (visit tasks fuel taskId st).visited)
      ∧ (∃ pre, (visit tasks fuel taskId st).visiting = pre ++ st.visiting
          ∧ ∀ x ∈ pre, x ∉ idsOf tasks)
      ∧ (∃ newts, (visit tasks fuel taskId st).result = st.result ++ newts)
      ∧ tMeasure tasks (visit tasks fuel taskId st) ≤ tMeasure tasks st
      ∧ (taskId ∈ idsOf tasks → 0 < fuel →
          taskId ∈ st.visiting ∨ taskId ∈ (visit tasks fuel taskId st).visited) := by
  intro fuel
  induction fuel with
  | zero =>
    intro taskId st h
    exact ⟨h, fun x hx => hx, ⟨[], rfl, by simp⟩, ⟨[], by simp [visit]⟩, le_refl _,
      fun _ h0 => absurd h0 (by simp)⟩
  | succ f ih =>
    have loop : ∀ (ds : List String) (s : TState), TWF tasks s →
        TWF tasks (visitListG (visit tasks f) ds s)
        ∧ (∀ x ∈ s.visited, x ∈ (visitListG (visit tasks f) ds s).visited)
        ∧ (∃ pre, (visitListG (visit tasks f) ds s).visiting = pre ++ s.visiting
            ∧ ∀ x ∈ pre, x ∉ idsOf tasks)
        ∧ (∃ newts, (visitListG (visit tasks f) ds s).result = s.result ++ newts)
        ∧ tMeasure tasks (visitListG (visit tasks f) ds s) ≤ tMeasure tasks s := by
      intro ds
      induction ds with
      | nil =>
        intro s h
        exact ⟨h, fun x hx => hx, ⟨[], rfl, by simp⟩, ⟨[], by simp [visitListG]⟩, le_refl _⟩
      | cons d rest ihd =>
        intro s h
        obtain ⟨hw1, hm1, ⟨p1, hp1, hp1n⟩, ⟨n1, hn1⟩, hme1, _⟩ := ih d s h
        obtain ⟨hw2, hm2, ⟨p2, hp2, hp2n⟩, ⟨n2, hn2⟩, hme2⟩ := ihd (visit tasks f d s) hw1
        refine ⟨hw2, fun x hx => hm2 x (hm1 x hx),
          ⟨p2 ++ p1, ?_, ?_⟩, ⟨n1 ++ n2, ?_⟩, le_trans hme2 hme1⟩
        · rw [visitListG, hp2, hp1, List.append_assoc]
        · intro x hx
          rcases List.mem_append.mp hx with h1 | h1
          exacts [hp2n x h1, hp1n x h1]
        · rw [visitListG, hn2, hn1, List.append_assoc]
    intro taskId st hwf
    by_cases hviz : taskId ∈ st.visiting
    · rw [show visit tasks (f + 1) taskId st = st by rw [visit]; rw [if_pos hviz]]
      exact ⟨hwf, fun x hx => hx, ⟨[], rfl, by simp⟩, ⟨[], by simp⟩, le_refl _,
        fun _ _ => Or.inl hviz⟩
    · by_cases hvis : taskId ∈ st.visited
      · rw [show visit tasks (f + 1) taskId st = st by
          rw [visit]; rw [if_neg hviz, if_pos hvis]]
        exact ⟨hwf, fun x hx => hx, ⟨[], rfl, by simp⟩, ⟨[], by simp⟩, le_refl _,
          fun _ _ => Or.inr hvis⟩
      · obtain ⟨hw1, hw2, hw3, hw4, hw5⟩ := hwf
        have hwf1 : TWF tasks { st with visiting := taskId :: st.visiting } := by
          refine ⟨List.nodup_cons.mpr ⟨hviz, hw1⟩, ?_, hw3, hw4, hw5⟩
          intro x hx
          rcases List.mem_cons.mp hx with rfl | hx2
          exacts [hvis, hw2 x hx2]
        have hmeas1 : tMeasure tasks { st with visiting := taskId :: st.visiting }
            ≤ tMeasure tasks st := by
          apply tMeasure_le_of_subset
          intro x hx
          rcases hx with h1 | h1
          exacts [Or.inl (List.mem_cons_of_mem _ h1), Or.inr h1]
        cases hfind : taskMapGet tasks taskId with
        | some task =>
          obtain ⟨htask, htid⟩ := taskMapGet_some hfind
          obtain ⟨⟨hq1, hq2, hq3, hq4, hq5⟩, hqm, ⟨p2, hp2, hp2n⟩, ⟨n2, hn2⟩, hqme⟩ :=
            loop task.dependencies { st with visiting := taskId :: st.visiting } hwf1
          set st2 := visitListG (visit tasks f) task.dependencies
            { st with visiting := taskId :: st.visiting } with hst2
          have hveq : visit tasks (f + 1) taskId st =
              { visiting := st2.visiting.erase taskId,
                visited := taskId :: st2.visited,
                result := st2.result ++ [task] } := by
            rw [visit]
            rw [if_neg hviz, if_neg hvis, hfind]
          have hidmem : taskId ∈ idsOf tasks := htid ▸ List.mem_map_of_mem Task.id htask
          have hnp2 : taskId ∉ p2 := fun hc => hp2n taskId hc hidmem
          have hverase : st2.visiting.erase taskId = p2 ++ st.visiting := by
            rw [hp2, List.erase_append_right _ hnp2, List.erase_cons_head]
          have hvizmem : taskId ∈ st2.visiting := by
            rw [hp2]; exact List.mem_append.mpr (Or.inr (List.mem_cons_self _ _))
          have hid2 : taskId ∉ st2.visited := fun hc => hq2 taskId hvizmem hc
          have hidres : taskId ∉ idsOf st2.result := fun hc => hid2 ((hq5 taskId).mpr hc)
          have hids : idsOf (st2.result ++ [task]) = idsOf st2.result ++ [taskId] := by
            simp [idsOf, htid]
          rw [hveq]
          refine ⟨⟨hq1.erase taskId, ?_, ?_, ?_, ?_⟩, ?_, ⟨p2, hverase, hp2n⟩,
            ⟨n2 ++ [task], ?_⟩, ?_, ?_⟩
          · intro x hx
            have hxin : x ∈ st2.visiting := List.mem_of_mem_erase hx
            have hxne : x ≠ taskId := by
              rw [hverase] at hx
              rcases List.mem_append.mp hx with h1 | h1
              · exact fun hc => hp2n x h1 (hc ▸ hidmem)
              · exact fun hc => hviz (hc ▸ h1)
            intro hc
            rcases List.mem_cons.mp hc with h1 | h1
            exacts [hxne h1, hq2 x hxin h1]
          · intro t ht
            rcases List.mem_append.mp ht with h1 | h1
            · exact hq3 t h1
            · rw [List.mem_singleton.mp h1]; exact htask
          · show (idsOf (st2.result ++ [task])).Nodup
            rw [hids, List.nodup_append]
            exact ⟨hq4, List.nodup_singleton _,
              fun x hx hc => hidres ((List.mem_singleton.mp hc) ▸ hx)⟩
          · intro x
            show x ∈ taskId :: st2.visited ↔ x ∈ idsOf (st2.result ++ [task])
            rw [hids, List.mem_append, List.mem_singleton, List.mem_cons, hq5 x]
            tauto
          · intro x hx
            exact List.mem_cons_of_mem _ (hqm x hx)
          · show st2.result ++ [task] = st.result ++ (n2 ++ [task])
            rw [hn2, List.append_assoc]
          · apply tMeasure_le_of_subset
            intro x hx
            rcases hx with h1 | h1
            · left
              rw [hverase]
              exact List.mem_append.mpr (Or.inr h1)
            · right
              exact List.mem_cons_of_mem _ (hqm x h1)
          · intro _ _
            exact Or.inr (List.mem_cons_self _ _)
        | none =>
          have hnotin := taskMapGet_none hfind
          have hveq : visit tasks (f + 1) taskId st =
              { st with visiting := taskId :: st.visiting } := by
            rw [visit]
            rw [if_neg hviz, if_neg hvis, hfind]
          rw [hveq]
          refine ⟨hwf1, fun x hx => hx,
            ⟨[taskId], rfl, fun x hx => by rw [List.mem_singleton.mp hx]; exact hnotin⟩,
            ⟨[], by simp⟩, hmeas1, fun hmem _ => absurd hmem hnotin⟩

theorem topoRoots_spec (tasks : List Task) :
    ∀ (roots : List Task) (st : TState), TWF tasks st →
      (∀ x ∈ st.visiting, x ∉ idsOf tasks) →
      TWF tasks (roots.foldl (fun s task => visit tasks (traversalFuel tasks) task.id s) st)
      ∧ (∀ x ∈ (roots.foldl (fun s task => visit tasks (traversalFuel tasks) task.id s) st).visiting,
          x ∉ idsOf tasks)
      ∧ (∀ x ∈ st.visited,
          x ∈ (roots.foldl (fun s task => visit tasks (traversalFuel tasks) task.id s) st).visited)
      ∧ (∀ t ∈ roots, t ∈ tasks →
          t.id ∈ (roots.foldl (fun s task => visit tasks (traversalFuel tasks) task.id s) st).visited) := by
  intro roots
  induction roots with
  | nil =>
    intro st h hviz
    exact ⟨h, hviz, fun x hx => hx, fun t ht => absurd ht (List.not_mem_nil t)⟩
  | cons r roots ih =>
    intro st h hviz
    obtain ⟨hw1, hm1, ⟨p1, hp1, hp1n⟩, _, _, hc1⟩ := visit_spec tasks (traversalFuel tasks) r.id st h
    have hviz1 : ∀ x ∈ (visit tasks (traversalFuel tasks) r.id st).visiting, x ∉ idsOf tasks := by
      intro x hx
      rw [hp1] at hx
      rcases List.mem_append.mp hx with h1 | h1
      exacts [hp1n x h1, hviz x h1]
    obtain ⟨hz1, hz2, hz3, hz4⟩ := ih (visit tasks (traversalFuel tasks) r.id st) hw1 hviz1
    refine ⟨hz1, hz2, fun x hx => hz3 x (hm1 x hx), ?_⟩
    intro t ht htt
    rcases List.mem_cons.mp ht with rfl | h1
    · have hid : t.id ∈ idsOf tasks := List.mem_map_of_mem Task.id htt
      rcases hc1 hid (by simp [traversalFuel]) with h2 | h2
      · exact absurd hid (hviz t.id h2)
      · exact hz3 t.id h2
    · exact hz4 t h1 htt

theorem topologicalSort_perm (tasks : List Task) (hnd : (idsOf tasks).Nodup) :
    (topologicalSort tasks).Perm tasks := by
  have hinit : TWF tasks ⟨[], [], []⟩ :=
    ⟨List.nodup_nil, by simp, by simp, by simp [idsOf], by simp [idsOf]⟩
  obtain ⟨⟨_, _, hq3, hq4, hq5⟩, _, _, hall⟩ :=
    topoRoots_spec tasks tasks ⟨[], [], []⟩ hinit (by simp)
  set fin := tasks.foldl (fun s task => visit tasks (traversalFuel tasks) task.id s)
    (⟨[], [], []⟩ : TState) with hfin
  have hres : topologicalSort tasks = fin.result := rfl
  rw [hres]
  have hrn : fin.result.Nodup := List.Nodup.of_map Task.id hq4
  have htn : tasks.Nodup := List.Nodup.of_map Task.id hnd
  rw [List.perm_ext_iff_of_nodup hrn htn]
  intro t
  constructor
  · exact fun ht => hq3 t ht
  · intro ht
    have hidv : t.id ∈ fin.visited := hall t ht ht
    have : t.id ∈ idsOf fin.result := (hq5 t.id).mp hidv
    obtain ⟨u, hu, huid⟩ := List.mem_map.mp this
    have : u = t := List.inj_on_of_nodup_map hnd (hq3 u hu) ht huid
    exact this ▸ hu

theorem resOrdAux_append (tasks : List Task) :
    ∀ (res : List Task) (done : List String) (t : Task),
      resOrdAux tasks done (res ++ [t])
        ↔ resOrdAux tasks done res ∧ depsSatisfied tasks (done ++ idsOf res) t := by
  intro res
  induction res with
  | nil =>
    intro done t
    simp [resOrdAux, idsOf]
  | cons u res ih =>
    intro done t
    rw [List.cons_append, resOrdAux, resOrdAux, ih (done ++ [u.id]) t]
    have heq : done ++ [u.id] ++ idsOf res = done ++ idsOf (u :: res) := by
      rw [List.append_assoc]; rfl
    constructor
    · rintro ⟨h1, h2, h3⟩
      exact ⟨⟨h1, h2⟩, heq ▸ h3⟩
    · rintro ⟨⟨h1, h2⟩, h3⟩
      refine ⟨h1, h2, ?_⟩
      rw [heq]
      exact h3

/-- Strict measure decrease when a fresh relevant id enters `visiting`. -/
theorem tMeasure_lt_push (tasks : List Task) (st : TState) (taskId : String)
    (hu : taskId ∈ univIds tasks) (h1 : taskId ∉ st.visiting) (h2 : taskId ∉ st.visited) :
    tMeasure tasks { st with visiting := taskId :: st.visiting } < tMeasure tasks st := by
  apply length_filter_lt_of_imp
  · intro x _ hx
    simp only [decide_eq_true_eq] at hx ⊢
    exact ⟨fun hc => hx.1 (List.mem_cons_of_mem _ hc), hx.2⟩
  · exact List.mem_dedup.mpr hu
  · simp [h1, h2]
  · simp

theorem visitListG_spec (tasks : List Task) (f : Nat) :
    ∀ (ds : List String) (s : TState), TWF tasks s →
      TWF tasks (visitListG (visit tasks f) ds s)
      ∧ (∀ x ∈ s.visited, x ∈ (visitListG (visit tasks f) ds s).visited)
      ∧ (∃ pre, (visitListG (visit tasks f) ds s).visiting = pre ++ s.visiting
          ∧ ∀ x ∈ pre, x ∉ idsOf tasks)
      ∧ (∃ newts, (visitListG (visit tasks f) ds s).result = s.result ++ newts)
      ∧ tMeasure tasks (visitListG (visit tasks f) ds s) ≤ tMeasure tasks s := by
  intro ds
  induction ds with
  | nil =>
    intro s h
    exact ⟨h, fun x hx => hx, ⟨[], rfl, by simp⟩, ⟨[], by simp [visitListG]⟩, le_refl _⟩
  | cons d rest ihd =>
    intro s h
    obtain ⟨hw1, hm1, ⟨p1, hp1, hp1n⟩, ⟨n1, hn1⟩, hme1, _⟩ := visit_spec tasks f d s h
    obtain ⟨hw2, hm2, ⟨p2, hp2, hp2n⟩, ⟨n2, hn2⟩, hme2⟩ := ihd (visit tasks f d s) hw1
    refine ⟨hw2, fun x hx => hm2 x (hm1 x hx),
      ⟨p2 ++ p1, ?_, ?_⟩, ⟨n1 ++ n2, ?_⟩, le_trans hme2 hme1⟩
    · rw [visitListG, hp2, hp1, List.append_assoc]
    · intro x hx
      rcases List.mem_append.mp hx with h1 | h1
      exacts [hp2n x h1, hp1n x h1]
    · rw [visitListG, hn2, hn1, List.append_assoc]

theorem visit_ord (tasks : List Task) (hacy : Acyclic tasks) :
    ∀ (fuel : Nat) (taskId : String) (st : TState),
      TWF tasks st → tMeasure tasks st < fuel → taskId ∈ univIds tasks →
      (∀ x ∈ st.visiting, x ∈ idsOf tasks →
        Relation.TransGen (depEdge tasks) x taskId ∨ x = taskId) →
      resOrd tasks st.result →
      resOrd tasks (visit tasks fuel taskId st).result := by
  intro fuel
  induction fuel with
  | zero =>
    intro taskId st _ hm
    exact absurd hm (by simp)
  | succ f ih =>
    intro taskId st hwf hmeas huniv hreach hord
    by_cases hviz : taskId ∈ st.visiting
    · rw [show visit tasks (f + 1) taskId st = st by rw [visit]; rw [if_pos hviz]]
      exact hord
    · by_cases hvis : taskId ∈ st.visited
      · rw [show visit tasks (f + 1) taskId st = st by
          rw [visit]; rw [if_neg hviz, if_pos hvis]]
        exact hord
      · have hwf1 : TWF tasks { st with visiting := taskId :: st.visiting } := by
          obtain ⟨hw1, hw2, hw3, hw4, hw5⟩ := hwf
          refine ⟨List.nodup_cons.mpr ⟨hviz, hw1⟩, ?_, hw3, hw4, hw5⟩
          intro x hx
          rcases List.mem_cons.mp hx with rfl | hx2
          exacts [hvis, hw2 x hx2]
        have hmeas1 : tMeasure tasks { st with visiting := taskId :: st.visiting } < f := by
          have := tMeasure_lt_push tasks st taskId huniv hviz hvis
          omega
        cases hfind : taskMapGet tasks taskId with
        | none =>
          rw [show visit tasks (f + 1) taskId st =
              { st with visiting := taskId :: st.visiting } by
            rw [visit]; rw [if_neg hviz, if_neg hvis, hfind]]
          exact hord
        | some task =>
          obtain ⟨htask, htid⟩ := taskMapGet_some hfind
          have hedge : ∀ d ∈ task.dependencies, depEdge tasks taskId d :=
            fun d hd => ⟨task, htask, htid, hd⟩
          have loopOrd : ∀ (ds : List String) (s : TState),
              (∀ d ∈ ds, d ∈ univIds tasks ∧ depEdge tasks taskId d) →
              TWF tasks s → tMeasure tasks s < f →
              (∃ q, s.visiting = q ++ taskId :: st.visiting ∧ ∀ x ∈ q, x ∉ idsOf tasks) →
              resOrd tasks s.result →
              resOrd tasks (visitListG (visit tasks f) ds s).result
              ∧ (∀ x ∈ s.visited, x ∈ (visitListG (visit tasks f) ds s).visited)
              ∧ (∀ d ∈ ds, d ∈ idsOf tasks →
                  d ∈ (visitListG (visit tasks f) ds s).visited) := by
            intro ds
            induction ds with
            | nil =>
              intro s _ _ _ _ hords
              exact ⟨hords, fun x hx => hx, fun d hd => absurd hd (List.not_mem_nil d)⟩
            | cons d rest ihd =>
              intro s hds hwfs hmeass hshape hords
              obtain ⟨q, hq, hqn⟩ := hshape
              obtain ⟨hdu, hdedge⟩ := hds d (List.mem_cons_self d rest)
              have hfpos : 0 < f := Nat.lt_of_le_of_lt (Nat.zero_le _) hmeass
              have hdne : ∀ x, x = taskId → x = d → False := by
                intro x h1 h2
                exact hacy taskId (Relation.TransGen.single ((h2 ▸ h1 : d = taskId) ▸ hdedge))
              have hreachd : ∀ x ∈ s.visiting, x ∈ idsOf tasks →
                  Relation.TransGen (depEdge tasks) x d ∨ x = d := by
                intro x hx hxid
                rw [hq] at hx
                rcases List.mem_append.mp hx with h1 | h1
                · exact absurd hxid (hqn x h1)
                · rcases List.mem_cons.mp h1 with rfl | h2
                  · exact Or.inl (Relation.TransGen.single hdedge)
                  · rcases hreach x h2 hxid with h3 | h3
                    · exact Or.inl (Relation.TransGen.tail h3 hdedge)
                    · exact Or.inl (h3 ▸ Relation.TransGen.single hdedge)
              have hords1 := ih d s hwfs hmeass hdu hreachd hords
              obtain ⟨hw1, hm1, ⟨p1, hp1, hp1n⟩, _, hme1, hc1⟩ := visit_spec tasks f d s hwfs
              have hshape1 : ∃ q1, (visit tasks f d s).visiting = q1 ++ taskId :: st.visiting
                  ∧ ∀ x ∈ q1, x ∉ idsOf tasks := by
                refine ⟨p1 ++ q, ?_, ?_⟩
                · rw [hp1, hq, List.append_assoc]
                · intro x hx
                  rcases List.mem_append.mp hx with h1 | h1
                  exacts [hp1n x h1, hqn x h1]
              have hmeas2 : tMeasure tasks (visit tasks f d s) < f := lt_of_le_of_lt hme1 hmeass
              obtain ⟨hz1, hz2, hz3⟩ := ihd (visit tasks f d s)
                (fun e he => hds e (List.mem_cons_of_mem d he)) hw1 hmeas2 hshape1 hords1
              refine ⟨hz1, fun x hx => hz2 x (hm1 x hx), ?_⟩
              intro e he heid
              rcases List.mem_cons.mp he with rfl | h1
              · rcases hc1 heid hfpos with h2 | h2
                · exfalso
                  rw [hq] at h2
                  rcases List.mem_append.mp h2 with h3 | h3
                  · exact hqn e h3 heid
                  · rcases List.mem_cons.mp h3 with h4 | h4
                    · exact hdne e h4 rfl
                    · rcases hreach e h4 heid with h5 | h5
                      · exact hacy e (Relation.TransGen.tail h5 hdedge)
                      · exact hdne e h5 rfl
                · exact hz2 e h2
              · exact hz3 e h1 heid
          obtain ⟨ho1, _, ho3⟩ := loopOrd task.dependencies
            { st with visiting := taskId :: st.visiting }
            (fun d hd => ⟨mem_univIds_of_dep htask hd, hedge d hd⟩)
            hwf1 hmeas1 ⟨[], rfl, by simp⟩ hord
          obtain ⟨⟨_, _, _, _, hq5⟩, _, _, _, _⟩ := visitListG_spec tasks f task.dependencies
            { st with visiting := taskId :: st.visiting } hwf1
          rw [show visit tasks (f + 1) taskId st =
              { visiting := (visitListG (visit tasks f) task.dependencies
                  { st with visiting := taskId :: st.visiting }).visiting.erase taskId,
                visited := taskId :: (visitListG (visit tasks f) task.dependencies
                  { st with visiting := taskId :: st.visiting }).visited,
                result := (visitListG (visit tasks f) task.dependencies
                  { st with visiting := taskId :: st.visiting }).result ++ [task] } by
            rw [visit]; rw [if_neg hviz, if_neg hvis, hfind]]
          show resOrd tasks ((visitListG (visit tasks f) task.dependencies
            { st with visiting := taskId :: st.visiting }).result ++ [task])
          rw [resOrd, resOrdAux_append]
          refine ⟨ho1, ?_⟩
          intro d hd hdid
          exact (hq5 d).mp (ho3 d hd hdid)

/-- The measure never reaches the generous fuel supplied by the callers. -/
theorem tMeasure_lt_fuel (tasks : List Task) (st : TState) :
    tMeasure tasks st < traversalFuel tasks :=
  lt_of_le_of_lt
    (le_trans (List.length_filter_le _ _) (List.Sublist.length_le (List.dedup_sublist _)))
    (Nat.lt_succ_self _)

theorem topologicalSort_resOrd (tasks : List Task)
    (hacy : Acyclic tasks) : resOrd tasks (topologicalSort tasks) := by
  have main : ∀ (roots : List Task) (st : TState), (∀ t ∈ roots, t ∈ tasks) →
      TWF tasks st → (∀ x ∈ st.visiting, x ∉ idsOf tasks) → resOrd tasks st.result →
      resOrd tasks
        ((roots.foldl (fun s task => visit tasks (traversalFuel tasks) task.id s) st).result) := by
    intro roots
    induction roots with
    | nil => intro st _ _ _ hords; exact hords
    | cons r roots ihr =>
      intro st hsub hwf hviz hords
      have hr := hsub r (List.mem_cons_self r roots)
      have h1 := visit_ord tasks hacy (traversalFuel tasks) r.id st hwf
        (tMeasure_lt_fuel tasks st) (mem_univIds_of_task hr)
        (fun x hx hxid => absurd hxid (hviz x hx)) hords
      obtain ⟨hw1, _, ⟨p1, hp1, hp1n⟩, _, _, _⟩ :=
        visit_spec tasks (traversalFuel tasks) r.id st hwf
      have hviz1 : ∀ x ∈ (visit tasks (traversalFuel tasks) r.id st).visiting,
          x ∉ idsOf tasks := by
        intro x hx
        rw [hp1] at hx
        rcases List.mem_append.mp hx with h2 | h2
        exacts [hp1n x h2, hviz x h2]
      exact ihr (visit tasks (traversalFuel tasks) r.id st)
        (fun t ht => hsub t (List.mem_cons_of_mem r ht)) hw1 hviz1 h1
  exact main tasks ⟨[], [], []⟩ (fun t ht => ht)
    ⟨List.nodup_nil, by simp, by simp, by simp [idsOf], by simp [idsOf]⟩
    (by simp) (by simp [resOrd, resOrdAux])

theorem resOrdAux_get (tasks : List Task) :
    ∀ (res : List Task) (done : List String), resOrdAux tasks done res →
      ∀ (i : Nat) (hi : i < res.length),
        depsSatisfied tasks (done ++ idsOf (res.take i)) (res.get ⟨i, hi⟩) := by
  intro res
  induction res with
  | nil =>
    intro done _ i hi
    exact absurd hi (by simp)
  | cons u res ih =>
    intro done h i hi
    cases i with
    | zero =>
      simpa [idsOf] using h.1
    | succ i =>
      have := ih (done ++ [u.id]) h.2 i (Nat.lt_of_succ_lt_succ hi)
      have heq : done ++ [u.id] ++ idsOf (res.take i) = done ++ idsOf ((u :: res).take (i + 1)) := by
        rw [List.append_assoc]; rfl
      exact heq ▸ this

theorem mem_take_idx {α : Type} :
    ∀ (l : List α) (n : Nat) (a : α), a ∈ l.take n →
      ∃ k : Fin l.length, k.val < n ∧ l.get k = a := by
  intro l
  induction l with
  | nil => intro n a ha; rw [List.take_nil] at ha; exact absurd ha (List.not_mem_nil a)
  | cons x l ih =>
    intro n a ha
    cases n with
    | zero => exact absurd ha (by simp)
    | succ n =>
      rw [List.take_succ_cons] at ha
      rcases List.mem_cons.mp ha with rfl | h1
      · exact ⟨⟨0, by simp⟩, Nat.succ_pos n, rfl⟩
      · obtain ⟨k, hk, hkeq⟩ := ih n a h1
        exact ⟨⟨k.val + 1, by have := k.isLt; simp only [List.length_cons]; omega⟩,
          Nat.succ_lt_succ hk, hkeq⟩

theorem resOrd_index (tasks res : List Task) (hord : resOrd tasks res)
    (hnodup : (idsOf res).Nodup) (hsub : ∀ t ∈ res, t ∈ tasks) :
    ∀ i j : Fin res.length, (res.get j).id ∈ (res.get i).dependencies → j.val < i.val := by
  intro i j hdep
  have hjmem : res.get j ∈ res := res.get_mem j.val j.isLt
  have hdid : (res.get j).id ∈ idsOf tasks :=
    List.mem_map_of_mem Task.id (hsub _ hjmem)
  have hsat := resOrdAux_get tasks res [] hord i.val i.isLt
  have hmem : (res.get j).id ∈ idsOf (res.take i.val) := by
    have := hsat (res.get j).id hdep hdid
    simpa using this
  obtain ⟨u, hu, huid⟩ := List.mem_map.mp hmem
  have hu2 : u ∈ res := List.take_subset _ _ hu
  have hueq : u = res.get j := List.inj_on_of_nodup_map hnodup hu2 hjmem huid
  have hgj : res.get j ∈ res.take i.val := hueq ▸ hu
  obtain ⟨k, hk, hkeq⟩ := mem_take_idx res i.val (res.get j) hgj
  have hrn : res.Nodup := List.Nodup.of_map Task.id hnodup
  have : k = j := (List.Nodup.get_inj_iff hrn).mp hkeq
  omega

theorem find?_task_some {tasks : List Task} {taskId : String} {task : Task}
    (h : tasks.find? (fun t => t.id == taskId) = some task) :
    task ∈ tasks ∧ task.id = taskId :=
  ⟨List.mem_of_find?_eq_some h, by simpa using List.find?_some h⟩

theorem hasCycle_spec (tasks : List Task) :
    ∀ (fuel : Nat) (taskId : String) (st : DState), DWF st →
      DWF (hasCycle tasks fuel taskId st).2
      ∧ (∀ x ∈ st.visited, x ∈ (hasCycle tasks fuel taskId st).2.visited)
      ∧ (∃ ex, (hasCycle tasks fuel taskId st).2.cdeps = st.cdeps ++ ex)
      ∧ ((hasCycle tasks fuel taskId st).1 = false →
          (hasCycle tasks fuel taskId st).2.rstack = st.rstack
          ∧ (hasCycle tasks fuel taskId st).2.cdeps = st.cdeps)
      ∧ ((hasCycle tasks fuel taskId st).1 = true →
          (taskId ∈ st.rstack ∧ (hasCycle tasks fuel taskId st).2 = st)
          ∨ (hasCycle tasks fuel taskId st).2.cdeps ≠ [])
      ∧ (∃ pre, (hasCycle tasks fuel taskId st).2.rstack = pre ++ st.rstack)
      ∧ (0 < fuel → taskId ∈ (hasCycle tasks fuel taskId st).2.visited) := by
  intro fuel
  induction fuel with
  | zero =>
    intro taskId st h
    exact ⟨h, fun x hx => hx, ⟨[], by simp [hasCycle]⟩,
      fun _ => ⟨rfl, rfl⟩, fun hc => absurd hc (by simp [hasCycle]), ⟨[], rfl⟩,
      fun h0 => absurd h0 (by simp)⟩
  | succ f ih =>
    have loop : ∀ (taskId : String) (ds : List String) (s : DState), DWF s →
        DWF (depLoopG (hasCycle tasks f) taskId ds s).2
        ∧ (∀ x ∈ s.visited, x ∈ (depLoopG (hasCycle tasks f) taskId ds s).2.visited)
        ∧ (∃ ex, (depLoopG (hasCycle tasks f) taskId ds s).2.cdeps = s.cdeps ++ ex)
        ∧ ((depLoopG (hasCycle tasks f) taskId ds s).1 = false →
            (depLoopG (hasCycle tasks f) taskId ds s).2.rstack = s.rstack
            ∧ (depLoopG (hasCycle tasks f) taskId ds s).2.cdeps = s.cdeps)
        ∧ ((depLoopG (hasCycle tasks f) taskId ds s).1 = true →
            (depLoopG (hasCycle tasks f) taskId ds s).2.cdeps ≠ [])
        ∧ (∃ pre, (depLoopG (hasCycle tasks f) taskId ds s).2.rstack = pre ++ s.rstack) := by
      intro taskId ds
      induction ds with
      | nil =>
        intro s h
        exact ⟨h, fun x hx => hx, ⟨[], by simp [depLoopG]⟩, fun _ => ⟨rfl, rfl⟩,
          fun hc => absurd hc (by simp [depLoopG]), ⟨[], rfl⟩⟩
      | cons d rest ihd =>
        intro s h
        obtain ⟨hw1, hm1, ⟨e1, he1⟩, hf1, ht1, ⟨p1, hp1⟩, hv1⟩ := ih d s h
        cases hcd : hasCycle tasks f d s with
        | mk b1 s1 =>
          rw [hcd] at hw1 hm1 he1 hf1 ht1 hp1
          cases b1 with
          | true =>
            have heq : depLoopG (hasCycle tasks f) taskId (d :: rest) s
                = (true, { s1 with cdeps := s1.cdeps ++ [edgeStr taskId d] }) := by
              rw [depLoopG, hcd]
            rw [heq]
            refine ⟨⟨hw1.1, fun x hx => hw1.2 x hx⟩, fun x hx => hm1 x hx,
              ⟨e1 ++ [edgeStr taskId d], by rw [he1]; exact List.append_assoc _ _ _⟩,
              fun hc => Bool.noConfusion hc, fun _ => by simp, ⟨p1, hp1⟩⟩
          | false =>
            obtain ⟨hr1, hc1⟩ := hf1 rfl
            have heq : depLoopG (hasCycle tasks f) taskId (d :: rest) s
                = depLoopG (hasCycle tasks f) taskId rest s1 := by
              rw [depLoopG, hcd]
            rw [heq]
            obtain ⟨hz1, hz2, ⟨e2, he2⟩, hz4, hz5, ⟨p2, hp2⟩⟩ := ihd s1 hw1
            refine ⟨hz1, fun x hx => hz2 x (hm1 x hx),
              ⟨e2, by rw [he2, hc1]⟩, ?_, hz5, ⟨p2, by rw [hp2, hr1]⟩⟩
            intro hfz
            obtain ⟨ha, hb⟩ := hz4 hfz
            exact ⟨by rw [ha, hr1], by rw [hb, hc1]⟩
    intro taskId st hwf
    by_cases hrs : taskId ∈ st.rstack
    · rw [show hasCycle tasks (f + 1) taskId st = (true, st) by rw [hasCycle]; rw [if_pos hrs]]
      exact ⟨hwf, fun x hx => hx, ⟨[], by simp⟩, fun hc => Bool.noConfusion hc,
        fun _ => Or.inl ⟨hrs, rfl⟩, ⟨[], rfl⟩, fun _ => hwf.2 taskId hrs⟩
    · by_cases hvs : taskId ∈ st.visited
      · rw [show hasCycle tasks (f + 1) taskId st = (false, st) by
          rw [hasCycle]; rw [if_neg hrs, if_pos hvs]]
        exact ⟨hwf, fun x hx => hx, ⟨[], by simp⟩, fun _ => ⟨rfl, rfl⟩,
          fun hc => Bool.noConfusion hc, ⟨[], rfl⟩, fun _ => hvs⟩
      · have hwf1 : DWF ⟨taskId :: st.visited, taskId :: st.rstack, st.cdeps⟩ := by
          refine ⟨List.nodup_cons.mpr ⟨hrs, hwf.1⟩, ?_⟩
          intro x hx
          rcases List.mem_cons.mp hx with rfl | h1
          · exact List.mem_cons_self _ _
          · exact List.mem_cons_of_mem _ (hwf.2 x h1)
        cases hfind : tasks.find? (fun t => t.id == taskId) with
        | none =>
          have heq : hasCycle tasks (f + 1) taskId st
              = (false, ⟨taskId :: st.visited, (taskId :: st.rstack).erase taskId, st.cdeps⟩) := by
            simp only [hasCycle, if_neg hrs, if_neg hvs, hfind]
          rw [heq, List.erase_cons_head]
          exact ⟨⟨hwf.1, fun x hx => List.mem_cons_of_mem _ (hwf.2 x hx)⟩,
            fun x hx => List.mem_cons_of_mem _ hx, ⟨[], by simp⟩, fun _ => ⟨rfl, rfl⟩,
            fun hc => Bool.noConfusion hc, ⟨[], rfl⟩, fun _ => List.mem_cons_self _ _⟩
        | some task =>
          obtain ⟨hq1, hq2, ⟨e2, he2⟩, hq4, hq5, ⟨p2, hp2⟩⟩ :=
            loop taskId task.dependencies ⟨taskId :: st.visited, taskId :: st.rstack, st.cdeps⟩ hwf1
          cases hloop : depLoopG (hasCycle tasks f) taskId task.dependencies
              ⟨taskId :: st.visited, taskId :: st.rstack, st.cdeps⟩ with
          | mk b2 s2 =>
            rw [hloop] at hq1 hq2 he2 hq4 hq5 hp2
            cases b2 with
            | true =>
              have heq : hasCycle tasks (f + 1) taskId st = (true, s2) := by
                simp only [hasCycle, if_neg hrs, if_neg hvs, hfind, hloop]
              rw [heq]
              refine ⟨hq1, fun x hx => hq2 x (List.mem_cons_of_mem _ hx),
                ⟨e2, he2⟩, fun hc => Bool.noConfusion hc, fun _ => Or.inr (hq5 rfl),
                ⟨p2 ++ [taskId], by rw [hp2, List.append_assoc]; rfl⟩,
                fun _ => hq2 taskId (List.mem_cons_self _ _)⟩
            | false =>
              obtain ⟨hr2, hc2⟩ := hq4 rfl
              have heq : hasCycle tasks (f + 1) taskId st
                  = (false, { s2 with rstack := s2.rstack.erase taskId }) := by
                simp only [hasCycle, if_neg hrs, if_neg hvs, hfind, hloop]
              have herase : s2.rstack.erase taskId = st.rstack := by
                rw [hr2, List.erase_cons_head]
              rw [heq]
              refine ⟨⟨?_, ?_⟩, fun x hx => hq2 x (List.mem_cons_of_mem _ hx),
                ⟨e2, he2⟩, fun _ => ⟨herase, hc2⟩, fun hc => Bool.noConfusion hc,
                ⟨[], herase⟩, fun _ => hq2 taskId (List.mem_cons_self _ _)⟩
              · rw [herase]
                exact hwf.1
              · intro x hx
                rw [herase] at hx
                exact hq2 x (List.mem_cons_of_mem _ (hwf.2 x hx))

theorem hasCycle_acyclic (tasks : List Task) (hacy : Acyclic tasks) :
    ∀ (fuel : Nat) (taskId : String) (st : DState), DWF st →
      (∀ x ∈ st.rstack, Relation.TransGen (depEdge tasks) x taskId) →
      (hasCycle tasks fuel taskId st).1 = false
      ∧ (hasCycle tasks fuel taskId st).2.rstack = st.rstack
      ∧ (hasCycle tasks fuel taskId st).2.cdeps = st.cdeps := by
  intro fuel
  induction fuel with
  | zero =>
    intro taskId st _ _
    exact ⟨rfl, rfl, rfl⟩
  | succ f ih =>
    intro taskId st hwf hreach
    have hrs : taskId ∉ st.rstack := by
      intro hc
      exact hacy taskId (hreach taskId hc)
    by_cases hvs : taskId ∈ st.visited
    · rw [show hasCycle tasks (f + 1) taskId st = (false, st) by
        rw [hasCycle]; rw [if_neg hrs, if_pos hvs]]
      exact ⟨rfl, rfl, rfl⟩
    · have hwf1 : DWF ⟨taskId :: st.visited, taskId :: st.rstack, st.cdeps⟩ := by
        refine ⟨List.nodup_cons.mpr ⟨hrs, hwf.1⟩, ?_⟩
        intro x hx
        rcases List.mem_cons.mp hx with rfl | h1
        · exact List.mem_cons_self _ _
        · exact List.mem_cons_of_mem _ (hwf.2 x h1)
      cases hfind : tasks.find? (fun t => t.id == taskId) with
      | none =>
        have heq : hasCycle tasks (f + 1) taskId st
            = (false, ⟨taskId :: st.visited, (taskId :: st.rstack).erase taskId, st.cdeps⟩) := by
          simp only [hasCycle, if_neg hrs, if_neg hvs, hfind]
        rw [heq, List.erase_cons_head]
        exact ⟨rfl, rfl, rfl⟩
      | some task =>
        obtain ⟨htask, htid⟩ := find?_task_some hfind
        have hedge : ∀ d ∈ task.dependencies, depEdge tasks taskId d :=
          fun d hd => ⟨task, htask, htid, hd⟩
        have loopAcy : ∀ (ds : List String) (s : DState),
            (∀ d ∈ ds, depEdge tasks taskId d) → DWF s →
            s.rstack = taskId :: st.rstack →
            (depLoopG (hasCycle tasks f) taskId ds s).1 = false
            ∧ (depLoopG (hasCycle tasks f) taskId ds s).2.rstack = s.rstack
            ∧ (depLoopG (hasCycle tasks f) taskId ds s).2.cdeps = s.cdeps := by
          intro ds
          induction ds with
          | nil =>
            intro s _ _ _
            exact ⟨rfl, rfl, rfl⟩
          | cons d rest ihd =>
            intro s hds hwfs hsr
            have hreachd : ∀ x ∈ s.rstack, Relation.TransGen (depEdge tasks) x d := by
              intro x hx
              rw [hsr] at hx
              rcases List.mem_cons.mp hx with rfl | h1
              · exact Relation.TransGen.single (hds d (List.mem_cons_self d rest))
              · exact Relation.TransGen.tail (hreach x h1) (hds d (List.mem_cons_self d rest))
            obtain ⟨hb, hr, hcd⟩ := ih d s hwfs hreachd
            obtain ⟨hw1, _, _, _, _, _, _⟩ := hasCycle_spec tasks f d s hwfs
            cases hcall : hasCycle tasks f d s with
            | mk b1 s1 =>
              rw [hcall] at hb hr hcd hw1
              cases b1 with
              | true => exact absurd hb (by simp)
              | false =>
                have heq2 : depLoopG (hasCycle tasks f) taskId (d :: rest) s
                    = depLoopG (hasCycle tasks f) taskId rest s1 := by
                  rw [depLoopG, hcall]
                rw [heq2]
                obtain ⟨hz1, hz2, hz3⟩ := ihd s1
                  (fun e he => hds e (List.mem_cons_of_mem d he)) hw1 (by rw [hr, hsr])
                exact ⟨hz1, by rw [hz2, hr], by rw [hz3, hcd]⟩
        obtain ⟨hl1, hl2, hl3⟩ := loopAcy task.dependencies
          ⟨taskId :: st.visited, taskId :: st.rstack, st.cdeps⟩
          hedge hwf1 rfl
        cases hloop : depLoopG (hasCycle tasks f) taskId task.dependencies
            ⟨taskId :: st.visited, taskId :: st.rstack, st.cdeps⟩ with
        | mk b2 s2 =>
          rw [hloop] at hl1 hl2 hl3
          cases b2 with
          | true => exact absurd hl1 (by simp)
          | false =>
            have heq : hasCycle tasks (f + 1) taskId st
                = (false, { s2 with rstack := s2.rstack.erase taskId }) := by
              simp only [hasCycle, if_neg hrs, if_neg hvs, hfind, hloop]
            rw [heq]
            exact ⟨rfl, by rw [hl2]; exact List.erase_cons_head _ _, hl3⟩

theorem detectCircularDependencies_acyclic (tasks : List Task) (hacy : Acyclic tasks) :
    detectCircularDependencies tasks = [] := by
  suffices h : ∀ (roots : List Task) (st : DState), DWF st → st.rstack = [] → st.cdeps = [] →
      (roots.foldl
        (fun s task => if task.id ∈ s.visited then s
          else (hasCycle tasks (traversalFuel tasks) task.id s).2) st).cdeps = [] by
    exact h tasks ⟨[], [], []⟩ ⟨List.nodup_nil, by simp⟩ rfl rfl
  intro roots
  induction roots with
  | nil =>
    intro st _ _ hc
    exact hc
  | cons r roots ihr =>
    intro st hwf hrs hcd
    by_cases hv : r.id ∈ st.visited
    · rw [List.foldl_cons, if_pos hv]
      exact ihr st hwf hrs hcd
    · rw [List.foldl_cons, if_neg hv]
      obtain ⟨_, hr2, hc2⟩ := hasCycle_acyclic tasks hacy (traversalFuel tasks) r.id st hwf
        (by rw [hrs]; intro x hx; exact absurd hx (List.not_mem_nil x))
      obtain ⟨hw2, _, _, _, _, _, _⟩ := hasCycle_spec tasks (traversalFuel tasks) r.id st hwf
      exact ihr _ hw2 (by rw [hr2, hrs]) (by rw [hc2, hcd])

/-- A rank function decreasing along edges certifies acyclicity. -/
theorem acyclic_of_rank (tasks : List Task) (rank : String → Nat)
    (h : ∀ a b, depEdge tasks a b → rank b < rank a) : Acyclic tasks := by
  have key : ∀ a b, Relation.TransGen (depEdge tasks) a b → rank b < rank a := by
    intro a b hab
    induction hab with
    | single h1 => exact h _ _ h1
    | tail _ h2 ih => exact lt_trans (h _ _ h2) ih
  intro a hc
  exact lt_irrefl _ (key a a hc)

/-- **C3.** For every task list with unique ids whose dependency graph
is acyclic, `detectCircularDependencies` returns the empty list, and
`topologicalSort` returns a permutation of the task list in which every
task appears strictly after each task its `dependencies` refer to. -/
theorem c3_acyclic_detect_and_order (tasks : List Task)
    (hnd : (idsOf tasks).Nodup) (hacy : Acyclic tasks) :
    detectCircularDependencies tasks = []
    ∧ (topologicalSort tasks).Perm tasks
    ∧ ∀ i j : Fin (topologicalSort tasks).length,
        ((topologicalSort tasks).get j).id ∈ ((topologicalSort tasks).get i).dependencies →
        (j : Nat) < (i : Nat) := by
  refine ⟨detectCircularDependencies_acyclic tasks hacy, topologicalSort_perm tasks hnd, ?_⟩
  have hperm := topologicalSort_perm tasks hnd
  have hnd2 : (idsOf (topologicalSort tasks)).Nodup := (hperm.map Task.id).nodup_iff.mpr hnd
  exact resOrd_index tasks (topologicalSort tasks) (topologicalSort_resOrd tasks hacy)
    hnd2 (fun t ht => hperm.mem_iff.mp ht)

/-- Witness for C3 on a concrete acyclic three-task list. -/
theorem c3_witness :
    ((idsOf c3tasks).Nodup ∧ Acyclic c3tasks) ∧
    detectCircularDependencies c3tasks = []
    ∧ (topologicalSort c3tasks).Perm c3tasks
    ∧ ∀ i j : Fin (topologicalSort c3tasks).length,
        ((topologicalSort c3tasks).get j).id ∈ ((topologicalSort c3tasks).get i).dependencies →
        (j : Nat) < (i : Nat) := by
  have hacy3 : Acyclic c3tasks := by
    apply acyclic_of_rank c3tasks
      (fun s => if s = "t3" then 2 else if s = "t2" then 1 else 0)
    rintro a b ⟨t, ht, rfl, hdep⟩
    fin_cases ht <;> simp_all [mkTask, c3tasks] <;> rcases hdep with rfl | rfl <;> decide
  exact ⟨⟨by decide, hacy3⟩, c3_acyclic_detect_and_order c3tasks (by decide) hacy3⟩


theorem find?_id_unique (tasks : List Task) (hnd : (idsOf tasks).Nodup) {t : Task}
    (ht : t ∈ tasks) : tasks.find? (fun u => u.id == t.id) = some t := by
  cases hf : tasks.find? (fun u => u.id == t.id) with
  | none =>
    rw [List.find?_eq_none] at hf
    exact absurd (by simp) (hf t ht)
  | some u =>
    obtain ⟨hu, huid⟩ := find?_task_some hf
    rw [List.inj_on_of_nodup_map hnd hu ht huid]

theorem find?_id_none {tasks : List Task} {taskId : String}
    (h : tasks.find? (fun t => t.id == taskId) = none) : taskId ∉ idsOf tasks := by
  rw [List.find?_eq_none] at h
  intro hmem
  obtain ⟨t, ht, hid⟩ := List.mem_map.mp hmem
  exact h t ht (by simp [hid])

theorem dMeasure_le_of_subset (tasks : List Task) (st st2 : DState)
    (h : ∀ x ∈ st.visited, x ∈ st2.visited) :
    dMeasure tasks st2 ≤ dMeasure tasks st := by
  apply length_filter_le_of_imp
  intro x _ hx
  simp only [decide_eq_true_eq] at hx ⊢
  exact fun hc => hx (h x hc)

theorem dMeasure_lt_push (tasks : List Task) (st : DState) (taskId : String)
    (hu : taskId ∈ univIds tasks) (h2 : taskId ∉ st.visited) (r c : List String) :
    dMeasure tasks ⟨taskId :: st.visited, r, c⟩ < dMeasure tasks st := by
  apply length_filter_lt_of_imp
  · intro x _ hx
    simp only [decide_eq_true_eq] at hx ⊢
    exact fun hc => hx (List.mem_cons_of_mem _ hc)
  · exact List.mem_dedup.mpr hu
  · simp [h2]
  · simp

theorem dMeasure_lt_fuel (tasks : List Task) (st : DState) :
    dMeasure tasks st < traversalFuel tasks :=
  lt_of_le_of_lt
    (le_trans (List.length_filter_le _ _) (List.Sublist.length_le (List.dedup_sublist _)))
    (Nat.lt_succ_self _)

theorem depLoopG_spec (tasks : List Task) (f : Nat) (taskId : String) :
    ∀ (ds : List String) (s : DState), DWF s →
      DWF (depLoopG (hasCycle tasks f) taskId ds s).2
      ∧ (∀ x ∈ s.visited, x ∈ (depLoopG (hasCycle tasks f) taskId ds s).2.visited)
      ∧ (∃ ex, (depLoopG (hasCycle tasks f) taskId ds s).2.cdeps = s.cdeps ++ ex)
      ∧ ((depLoopG (hasCycle tasks f) taskId ds s).1 = false →
          (depLoopG (hasCycle tasks f) taskId ds s).2.rstack = s.rstack
          ∧ (depLoopG (hasCycle tasks f) taskId ds s).2.cdeps = s.cdeps)
      ∧ ((depLoopG (hasCycle tasks f) taskId ds s).1 = true →
          (depLoopG (hasCycle tasks f) taskId ds s).2.cdeps ≠ []) := by
  intro ds
  induction ds with
  | nil =>
    intro s h
    exact ⟨h, fun x hx => hx, ⟨[], by simp [depLoopG]⟩, fun _ => ⟨rfl, rfl⟩,
      fun hc => absurd hc (by simp [depLoopG])⟩
  | cons d rest ihd =>
    intro s h
    obtain ⟨hw1, hm1, ⟨e1, he1⟩, hf1, ht1, _, hv1⟩ := hasCycle_spec tasks f d s h
    cases hcd : hasCycle tasks f d s with
    | mk b1 s1 =>
      rw [hcd] at hw1 hm1 he1 hf1 ht1
      cases b1 with
      | true =>
        have heq : depLoopG (hasCycle tasks f) taskId (d :: rest) s
            = (true, { s1 with cdeps := s1.cdeps ++ [edgeStr taskId d] }) := by
          rw [depLoopG, hcd]
        rw [heq]
        exact ⟨⟨hw1.1, fun x hx => hw1.2 x hx⟩, fun x hx => hm1 x hx,
          ⟨e1 ++ [edgeStr taskId d], by rw [he1]; exact List.append_assoc _ _ _⟩,
          fun hc => Bool.noConfusion hc, fun _ => by simp⟩
      | false =>
        obtain ⟨hr1, hc1⟩ := hf1 rfl
        have heq : depLoopG (hasCycle tasks f) taskId (d :: rest) s
            = depLoopG (hasCycle tasks f) taskId rest s1 := by
          rw [depLoopG, hcd]
        rw [heq]
        obtain ⟨hz1, hz2, ⟨e2, he2⟩, hz4, hz5⟩ := ihd s1 hw1
        refine ⟨hz1, fun x hx => hz2 x (hm1 x hx), ⟨e2, by rw [he2, hc1]⟩, ?_, hz5⟩
        intro hfz
        obtain ⟨ha2, hb2⟩ := hz4 hfz
        exact ⟨by rw [ha2, hr1], by rw [hb2, hc1]⟩

theorem hasCycle_twoCycle_master (tasks : List Task) (hnd : (idsOf tasks).Nodup)
    (a b : String) (tA tB : Task)
    (hA : tA ∈ tasks) (hAid : tA.id = a) (hAdep : b ∈ tA.dependencies)
    (hB : tB ∈ tasks) (hBid : tB.id = b) (hBdep : a ∈ tB.dependencies) (hab : a ≠ b) :
    ∀ (fuel : Nat) (taskId : String) (st : DState),
      DWF st → dMeasure tasks st < fuel → taskId ∈ univIds tasks →
      PsiInv a b st → ChiInv a b st →
      PsiInv a b (hasCycle tasks fuel taskId st).2
      ∧ ChiInv a b (hasCycle tasks fuel taskId st).2
      ∧ (a ∈ st.rstack → (hasCycle tasks fuel taskId st).2.cdeps = [] →
          b ∈ (hasCycle tasks fuel taskId st).2.visited → b ∈ st.visited)
      ∧ (b ∈ st.rstack → (hasCycle tasks fuel taskId st).2.cdeps = [] →
          a ∈ (hasCycle tasks fuel taskId st).2.visited → a ∈ st.visited) := by
  have haids : a ∈ idsOf tasks := hAid ▸ List.mem_map_of_mem Task.id hA
  have hbids : b ∈ idsOf tasks := hBid ▸ List.mem_map_of_mem Task.id hB
  intro fuel
  induction fuel with
  | zero =>
    intro taskId st _ hm
    exact absurd hm (by simp)
  | succ f ih =>
    intro taskId st hwf hmeas huniv hpsi hchi
    by_cases hrs : taskId ∈ st.rstack
    · rw [show hasCycle tasks (f + 1) taskId st = (true, st) by
        rw [hasCycle]; rw [if_pos hrs]]
      exact ⟨hpsi, hchi, fun _ _ hb2 => hb2, fun _ _ ha2 => ha2⟩
    · by_cases hvs : taskId ∈ st.visited
      · rw [show hasCycle tasks (f + 1) taskId st = (false, st) by
          rw [hasCycle]; rw [if_neg hrs, if_pos hvs]]
        exact ⟨hpsi, hchi, fun _ _ hb2 => hb2, fun _ _ ha2 => ha2⟩
      · have hwf1 : DWF ⟨taskId :: st.visited, taskId :: st.rstack, st.cdeps⟩ := by
          refine ⟨List.nodup_cons.mpr ⟨hrs, hwf.1⟩, ?_⟩
          intro x hx
          rcases List.mem_cons.mp hx with rfl | h1
          · exact List.mem_cons_self _ _
          · exact List.mem_cons_of_mem _ (hwf.2 x h1)
        have hmeas1 : dMeasure tasks ⟨taskId :: st.visited, taskId :: st.rstack, st.cdeps⟩ < f := by
          have := dMeasure_lt_push tasks st taskId huniv hvs (taskId :: st.rstack) st.cdeps
          omega
        have hfpos : 0 < f := Nat.lt_of_le_of_lt (Nat.zero_le _) hmeas1
        have hpsi1 : PsiInv a b ⟨taskId :: st.visited, taskId :: st.rstack, st.cdeps⟩ := by
          intro hcd
          refine ⟨?_, ?_⟩
          · rintro ⟨hav, har⟩
            have hane : a ≠ taskId := fun hc => har (hc ▸ List.mem_cons_self _ _)
            have hav2 : a ∈ st.visited := by
              rcases List.mem_cons.mp hav with h1 | h1
              exacts [absurd h1 hane, h1]
            exact List.mem_cons_of_mem _
              ((hpsi hcd).1 ⟨hav2, fun hc => har (List.mem_cons_of_mem _ hc)⟩)
          · rintro ⟨hbv, hbr⟩
            have hbne : b ≠ taskId := fun hc => hbr (hc ▸ List.mem_cons_self _ _)
            have hbv2 : b ∈ st.visited := by
              rcases List.mem_cons.mp hbv with h1 | h1
              exacts [absurd h1 hbne, h1]
            exact List.mem_cons_of_mem _
              ((hpsi hcd).2 ⟨hbv2, fun hc => hbr (List.mem_cons_of_mem _ hc)⟩)
        have hchi1 : ChiInv a b ⟨taskId :: st.visited, taskId :: st.rstack, st.cdeps⟩ := by
          rintro hcd ⟨⟨hav, har⟩, ⟨hbv, hbr⟩⟩
          have hane : a ≠ taskId := fun hc => har (hc ▸ List.mem_cons_self _ _)
          have hbne : b ≠ taskId := fun hc => hbr (hc ▸ List.mem_cons_self _ _)
          refine hchi hcd ⟨⟨?_, fun hc => har (List.mem_cons_of_mem _ hc)⟩,
            ⟨?_, fun hc => hbr (List.mem_cons_of_mem _ hc)⟩⟩
          · rcases List.mem_cons.mp hav with h1 | h1
            exacts [absurd h1 hane, h1]
          · rcases List.mem_cons.mp hbv with h1 | h1
            exacts [absurd h1 hbne, h1]
        cases hfind : tasks.find? (fun t => t.id == taskId) with
        | none =>
          have hni := find?_id_none hfind
          have hane : a ≠ taskId := fun hc => hni (hc ▸ haids)
          have hbne : b ≠ taskId := fun hc => hni (hc ▸ hbids)
          have heq : hasCycle tasks (f + 1) taskId st
              = (false, ⟨taskId :: st.visited, (taskId :: st.rstack).erase taskId, st.cdeps⟩) := by
            simp only [hasCycle, if_neg hrs, if_neg hvs, hfind]
          rw [heq, List.erase_cons_head]
          refine ⟨?_, ?_, ?_, ?_⟩
          · intro hcd
            refine ⟨?_, ?_⟩
            · rintro ⟨hav, har⟩
              have hav2 : a ∈ st.visited := by
                rcases List.mem_cons.mp hav with h1 | h1
                exacts [absurd h1 hane, h1]
              exact List.mem_cons_of_mem _ ((hpsi hcd).1 ⟨hav2, har⟩)
            · rintro ⟨hbv, hbr⟩
              have hbv2 : b ∈ st.visited := by
                rcases List.mem_cons.mp hbv with h1 | h1
                exacts [absurd h1 hbne, h1]
              exact List.mem_cons_of_mem _ ((hpsi hcd).2 ⟨hbv2, hbr⟩)
          · rintro hcd ⟨⟨hav, har⟩, ⟨hbv, hbr⟩⟩
            refine hchi hcd ⟨⟨?_, har⟩, ⟨?_, hbr⟩⟩
            · rcases List.mem_cons.mp hav with h1 | h1
              exacts [absurd h1 hane, h1]
            · rcases List.mem_cons.mp hbv with h1 | h1
              exacts [absurd h1 hbne, h1]
          · intro _ _ hbv
            rcases List.mem_cons.mp hbv with h1 | h1
            exacts [absurd h1 hbne, h1]
          · intro _ _ hav
            rcases List.mem_cons.mp hav with h1 | h1
            exacts [absurd h1 hane, h1]
        | some task =>
          obtain ⟨htask, htid⟩ := find?_task_some hfind
          have loopM : ∀ (ds : List String) (s : DState),
              (∀ d ∈ ds, d ∈ univIds tasks) → DWF s → dMeasure tasks s < f →
              PsiInv a b s → ChiInv a b s →
              PsiInv a b (depLoopG (hasCycle tasks f) taskId ds s).2
              ∧ ChiInv a b (depLoopG (hasCycle tasks f) taskId ds s).2
              ∧ (a ∈ s.rstack → (depLoopG (hasCycle tasks f) taskId ds s).2.cdeps = [] →
                  b ∈ (depLoopG (hasCycle tasks f) taskId ds s).2.visited → b ∈ s.visited)
              ∧ (b ∈ s.rstack → (depLoopG (hasCycle tasks f) taskId ds s).2.cdeps = [] →
                  a ∈ (depLoopG (hasCycle tasks f) taskId ds s).2.visited → a ∈ s.visited)
              ∧ ((depLoopG (hasCycle tasks f) taskId ds s).1 = false →
                  ∀ d ∈ ds, d ∈ (depLoopG (hasCycle tasks f) taskId ds s).2.visited)
              ∧ ((depLoopG (hasCycle tasks f) taskId ds s).1 = false →
                  a ∈ s.rstack → a ∉ ds)
              ∧ ((depLoopG (hasCycle tasks f) taskId ds s).1 = false →
                  b ∈ s.rstack → b ∉ ds)
              ∧ (∀ x ∈ s.visited, x ∈ (depLoopG (hasCycle tasks f) taskId ds s).2.visited) := by
            intro ds
            induction ds with
            | nil =>
              intro s _ _ _ hps hcs
              exact ⟨hps, hcs, fun _ _ hb2 => hb2, fun _ _ ha2 => ha2,
                fun _ d hd => absurd hd (List.not_mem_nil d),
                fun _ _ => List.not_mem_nil a, fun _ _ => List.not_mem_nil b,
                fun x hx => hx⟩
            | cons d rest ihd =>
              intro s hdu hwfs hmeass hps hcs
              obtain ⟨hg1, hg2, hg3, hg4⟩ := ih d s hwfs hmeass
                (hdu d (List.mem_cons_self d rest)) hps hcs
              obtain ⟨hw1, hm1, ⟨e1, he1⟩, hf1, ht1, _, hv1⟩ := hasCycle_spec tasks f d s hwfs
              cases hcall : hasCycle tasks f d s with
              | mk b1 s1 =>
                rw [hcall] at hg1 hg2 hg3 hg4 hw1 hm1 he1 hf1 ht1 hv1
                cases b1 with
                | true =>
                  have heq : depLoopG (hasCycle tasks f) taskId (d :: rest) s
                      = (true, { s1 with cdeps := s1.cdeps ++ [edgeStr taskId d] }) := by
                    rw [depLoopG, hcall]
                  rw [heq]
                  have hne : s1.cdeps ++ [edgeStr taskId d] ≠ [] := by simp
                  exact ⟨fun hcd => absurd hcd hne, fun hcd => absurd hcd hne,
                    fun _ hcd => absurd hcd hne, fun _ hcd => absurd hcd hne,
                    fun hfz => Bool.noConfusion hfz, fun hfz => Bool.noConfusion hfz,
                    fun hfz => Bool.noConfusion hfz, fun x hx => hm1 x hx⟩
                | false =>
                  obtain ⟨hr1, hc1⟩ := hf1 rfl
                  have heq : depLoopG (hasCycle tasks f) taskId (d :: rest) s
                      = depLoopG (hasCycle tasks f) taskId rest s1 := by
                    rw [depLoopG, hcall]
                  rw [heq]
                  have hmeass1 : dMeasure tasks s1 < f :=
                    lt_of_le_of_lt (dMeasure_le_of_subset tasks s s1 hm1) hmeass
                  obtain ⟨hz1, hz2, hz3, hz4, hz5, hz6, hz7, hz8⟩ := ihd s1
                    (fun e he => hdu e (List.mem_cons_of_mem d he)) hw1 hmeass1
                    (hg1) (hg2)
                  obtain ⟨_, _, ⟨e2, he2⟩, _, _⟩ := depLoopG_spec tasks f taskId rest s1 hw1
                  refine ⟨hz1, hz2, ?_, ?_, ?_, ?_, ?_, fun x hx => hz8 x (hm1 x hx)⟩
                  · intro har hcdf hbf
                    have hs1cd : s1.cdeps = [] := by
                      rw [he2] at hcdf
                      exact (List.append_eq_nil.mp hcdf).1
                    have hb1 : b ∈ s1.visited :=
                      hz3 (by rw [hr1]; exact har) hcdf hbf
                    exact hg3 har hs1cd hb1
                  · intro hbr hcdf haf
                    have hs1cd : s1.cdeps = [] := by
                      rw [he2] at hcdf
                      exact (List.append_eq_nil.mp hcdf).1
                    have ha1 : a ∈ s1.visited :=
                      hz4 (by rw [hr1]; exact hbr) hcdf haf
                    exact hg4 hbr hs1cd ha1
                  · intro hfz e he
                    rcases List.mem_cons.mp he with rfl | h1
                    · exact hz8 e (hv1 hfpos)
                    · exact hz5 hfz e h1
                  · intro hfz har hmem
                    rcases List.mem_cons.mp hmem with rfl | h1
                    · obtain ⟨f2, rfl⟩ := Nat.exists_eq_succ_of_ne_zero (Nat.pos_iff_ne_zero.mp hfpos)
                      rw [show hasCycle tasks (f2 + 1) a s = (true, s) by
                        rw [hasCycle]; rw [if_pos har]] at hcall
                      exact Bool.noConfusion (congrArg Prod.fst hcall)
                    · exact hz6 hfz (by rw [hr1]; exact har) h1
                  · intro hfz hbr hmem
                    rcases List.mem_cons.mp hmem with rfl | h1
                    · obtain ⟨f2, rfl⟩ := Nat.exists_eq_succ_of_ne_zero (Nat.pos_iff_ne_zero.mp hfpos)
                      rw [show hasCycle tasks (f2 + 1) b s = (true, s) by
                        rw [hasCycle]; rw [if_pos hbr]] at hcall
                      exact Bool.noConfusion (congrArg Prod.fst hcall)
                    · exact hz7 hfz (by rw [hr1]; exact hbr) h1
          obtain ⟨hL1, hL2, hL3, hL4, hL5, hL6, hL7, hL8⟩ := loopM task.dependencies
            ⟨taskId :: st.visited, taskId :: st.rstack, st.cdeps⟩
            (fun e he => mem_univIds_of_dep htask he) hwf1 hmeas1 hpsi1 hchi1
          obtain ⟨_, _, ⟨eL, heL⟩, hLf, hLt⟩ := depLoopG_spec tasks f taskId task.dependencies
            ⟨taskId :: st.visited, taskId :: st.rstack, st.cdeps⟩ hwf1
          cases hloop : depLoopG (hasCycle tasks f) taskId task.dependencies
              ⟨taskId :: st.visited, taskId :: st.rstack, st.cdeps⟩ with
          | mk b2 s2 =>
            rw [hloop] at hL1 hL2 hL3 hL4 hL5 hL6 hL7 hL8 heL hLf hLt
            cases b2 with
            | true =>
              have heq : hasCycle tasks (f + 1) taskId st = (true, s2) := by
                simp only [hasCycle, if_neg hrs, if_neg hvs, hfind, hloop]
              rw [heq]
              have hne := hLt rfl
              exact ⟨fun hcd => absurd hcd hne, fun hcd => absurd hcd hne,
                fun _ hcd => absurd hcd hne, fun _ hcd => absurd hcd hne⟩
            | false =>
              obtain ⟨hLr, hLc⟩ := hLf rfl
              have heq : hasCycle tasks (f + 1) taskId st
                  = (false, { s2 with rstack := s2.rstack.erase taskId }) := by
                simp only [hasCycle, if_neg hrs, if_neg hvs, hfind, hloop]
              have herase : s2.rstack.erase taskId = st.rstack := by
                rw [hLr, List.erase_cons_head]
              rw [heq]
              have hstv : ∀ x, x ∈ taskId :: st.visited → x ∈ s2.visited := fun x hx => hL8 x hx
              refine ⟨?_, ?_, ?_, ?_⟩
              · intro hcd
                have hstcd : st.cdeps = [] := by rw [← hLc]; exact hcd
                refine ⟨?_, ?_⟩
                · rintro ⟨hav, har2⟩
                  rw [herase] at har2
                  by_cases haid : a = taskId
                  · have htaskA : task = tA := by
                      have h1 := find?_id_unique tasks hnd hA
                      rw [hAid, haid] at h1
                      exact Option.some.inj (hfind.symm.trans h1)
                    exact hL5 rfl b (htaskA ▸ hAdep)
                  · have : dCompleted s2 a := by
                      refine ⟨hav, ?_⟩
                      rw [hLr]
                      intro hc
                      rcases List.mem_cons.mp hc with h1 | h1
                      exacts [haid h1, har2 h1]
                    exact (hL1 hcd).1 this
                · rintro ⟨hbv, hbr2⟩
                  rw [herase] at hbr2
                  by_cases hbid : b = taskId
                  · have htaskB : task = tB := by
                      have h1 := find?_id_unique tasks hnd hB
                      rw [hBid, hbid] at h1
                      exact Option.some.inj (hfind.symm.trans h1)
                    exact hL5 rfl a (htaskB ▸ hBdep)
                  · have : dCompleted s2 b := by
                      refine ⟨hbv, ?_⟩
                      rw [hLr]
                      intro hc
                      rcases List.mem_cons.mp hc with h1 | h1
                      exacts [hbid h1, hbr2 h1]
                    exact (hL1 hcd).2 this
              · intro hcd
                have hstcd : st.cdeps = [] := by rw [← hLc]; exact hcd
                rintro ⟨⟨hav, har2⟩, ⟨hbv, hbr2⟩⟩
                rw [herase] at har2 hbr2
                by_cases haid : a = taskId
                · have hbin : b ∈ st.visited := by
                    have hbs1 : b ∈ taskId :: st.visited :=
                      hL3 (haid ▸ List.mem_cons_self _ _) hcd hbv
                    rcases List.mem_cons.mp hbs1 with h1 | h1
                    · exact absurd (haid.trans h1.symm) hab
                    · exact h1
                  have : a ∈ st.visited := (hpsi hstcd).2 ⟨hbin, hbr2⟩
                  exact hvs (haid ▸ this)
                · by_cases hbid : b = taskId
                  · have hain : a ∈ st.visited := by
                      have has1 : a ∈ taskId :: st.visited :=
                        hL4 (hbid ▸ List.mem_cons_self _ _) hcd hav
                      rcases List.mem_cons.mp has1 with h1 | h1
                      · exact absurd (h1.trans hbid.symm).symm (Ne.symm hab)
                      · exact h1
                    have : b ∈ st.visited := (hpsi hstcd).1 ⟨hain, har2⟩
                    exact hvs (hbid ▸ this)
                  · refine hL2 hcd ⟨⟨hav, ?_⟩, ⟨hbv, ?_⟩⟩
                    · rw [hLr]
                      intro hc
                      rcases List.mem_cons.mp hc with h1 | h1
                      exacts [haid h1, har2 h1]
                    · rw [hLr]
                      intro hc
                      rcases List.mem_cons.mp hc with h1 | h1
                      exacts [hbid h1, hbr2 h1]
              · intro har hcd hbv
                have hbs1 : b ∈ taskId :: st.visited :=
                  hL3 (List.mem_cons_of_mem _ har) hcd hbv
                rcases List.mem_cons.mp hbs1 with h1 | h1
                · exfalso
                  have htaskB : task = tB := by
                    have h2 := find?_id_unique tasks hnd hB
                    rw [hBid, h1] at h2
                    exact Option.some.inj (hfind.symm.trans h2)
                  exact hL6 rfl (List.mem_cons_of_mem _ har) (htaskB ▸ hBdep)
                · exact h1
              · intro hbr hcd hav
                have has1 : a ∈ taskId :: st.visited :=
                  hL4 (List.mem_cons_of_mem _ hbr) hcd hav
                rcases List.mem_cons.mp has1 with h1 | h1
                · exfalso
                  have htaskA : task = tA := by
                    have h2 := find?_id_unique tasks hnd hA
                    rw [hAid, h1] at h2
                    exact Option.some.inj (hfind.symm.trans h2)
                  exact hL7 rfl (List.mem_cons_of_mem _ hbr) (htaskA ▸ hAdep)
                · exact h1

theorem detect_twoCycle_ne_nil (tasks : List Task) (hnd : (idsOf tasks).Nodup)
    {a b : String} (htc : TwoCycle tasks a b) :
    detectCircularDependencies tasks ≠ [] := by
  obtain ⟨hab, ⟨tA, hA, hAid, hAdep⟩, ⟨tB, hB, hBid, hBdep⟩⟩ := htc
  have master := hasCycle_twoCycle_master tasks hnd a b tA tB hA hAid hAdep hB hBid hBdep hab
  have fold : ∀ (roots : List Task) (st : DState), (∀ t ∈ roots, t ∈ tasks) →
      DWF st → PsiInv a b st → ChiInv a b st → (st.cdeps = [] → st.rstack = []) →
      DWF (roots.foldl (fun s task => if task.id ∈ s.visited then s
        else (hasCycle tasks (traversalFuel tasks) task.id s).2) st)
      ∧ PsiInv a b (roots.foldl (fun s task => if task.id ∈ s.visited then s
          else (hasCycle tasks (traversalFuel tasks) task.id s).2) st)
      ∧ ChiInv a b (roots.foldl (fun s task => if task.id ∈ s.visited then s
          else (hasCycle tasks (traversalFuel tasks) task.id s).2) st)
      ∧ ((roots.foldl (fun s task => if task.id ∈ s.visited then s
          else (hasCycle tasks (traversalFuel tasks) task.id s).2) st).cdeps = [] →
          (roots.foldl (fun s task => if task.id ∈ s.visited then s
            else (hasCycle tasks (traversalFuel tasks) task.id s).2) st).rstack = [])
      ∧ (∀ x ∈ st.visited, x ∈ (roots.foldl (fun s task => if task.id ∈ s.visited then s
          else (hasCycle tasks (traversalFuel tasks) task.id s).2) st).visited)
      ∧ (∀ t ∈ roots, t.id ∈ (roots.foldl (fun s task => if task.id ∈ s.visited then s
          else (hasCycle tasks (traversalFuel tasks) task.id s).2) st).visited) := by
    intro roots
    induction roots with
    | nil =>
      intro st _ h1 h2 h3 h4
      exact ⟨h1, h2, h3, h4, fun x hx => hx, fun t ht => absurd ht (List.not_mem_nil t)⟩
    | cons r roots ihr =>
      intro st hroots hwf hpsi hchi hstk
      have hr := hroots r (List.mem_cons_self r roots)
      by_cases hv : r.id ∈ st.visited
      · rw [List.foldl_cons, if_pos hv]
        obtain ⟨z1, z2, z3, z4, z5, z6⟩ := ihr st
          (fun t ht => hroots t (List.mem_cons_of_mem r ht)) hwf hpsi hchi hstk
        refine ⟨z1, z2, z3, z4, z5, ?_⟩
        intro t ht
        rcases List.mem_cons.mp ht with rfl | h1
        exacts [z5 t.id hv, z6 t h1]
      · rw [List.foldl_cons, if_neg hv]
        obtain ⟨g1, g2, _, _⟩ := master (traversalFuel tasks) r.id st hwf
          (dMeasure_lt_fuel tasks st) (mem_univIds_of_task hr) hpsi hchi
        obtain ⟨s1, sm1, ⟨e1, se1⟩, sf1, st1, _, sv1⟩ :=
          hasCycle_spec tasks (traversalFuel tasks) r.id st hwf
        have hstk2 : (hasCycle tasks (traversalFuel tasks) r.id st).2.cdeps = [] →
            (hasCycle tasks (traversalFuel tasks) r.id st).2.rstack = [] := by
          intro hcd
          cases hcall : (hasCycle tasks (traversalFuel tasks) r.id st).1 with
          | false =>
            obtain ⟨ha1, hb1⟩ := sf1 hcall
            rw [ha1]
            exact hstk (by rw [← hb1]; exact hcd)
          | true =>
            rcases st1 hcall with ⟨hmem, heq⟩ | hne
            · rw [heq]
              exact hstk (by rw [heq] at hcd; exact hcd)
            · exact absurd hcd hne
        obtain ⟨z1, z2, z3, z4, z5, z6⟩ := ihr
          ((hasCycle tasks (traversalFuel tasks) r.id st).2)
          (fun t ht => hroots t (List.mem_cons_of_mem r ht)) s1 g1 g2 hstk2
        refine ⟨z1, z2, z3, z4, fun x hx => z5 x (sm1 x hx), ?_⟩
        intro t ht
        rcases List.mem_cons.mp ht with rfl | h1
        · exact z5 t.id (sv1 (by simp [traversalFuel]))
        · exact z6 t h1
  obtain ⟨_, _, zchi, zstk, _, zall⟩ := fold tasks ⟨[], [], []⟩ (fun t ht => ht)
    ⟨List.nodup_nil, by simp⟩
    (by intro _; constructor <;> rintro ⟨h1, _⟩ <;> exact absurd h1 (List.not_mem_nil _))
    (by rintro _ ⟨⟨h1, _⟩, _⟩; exact absurd h1 (List.not_mem_nil _))
    (fun _ => rfl)
  intro hnil
  have hav : a ∈ _ := hAid ▸ zall tA hA
  have hbv : b ∈ _ := hBid ▸ zall tB hB
  have hstk0 := zstk hnil
  exact zchi hnil ⟨⟨hav, by rw [hstk0]; exact List.not_mem_nil a⟩,
    ⟨hbv, by rw [hstk0]; exact List.not_mem_nil b⟩⟩

/-- **C4 (amended).** For every task list with unique ids containing a
two-task cycle between `a` and `b`, `detectCircularDependencies` reports
at least one cycle edge (the returned list is nonempty) — though, as the
counterexample shows, possibly no edge of the `a`–`b` cycle itself when
an earlier-detected cycle has polluted the recursion stack — and
`topologicalSort` terminates (it is a total function) and returns every
task of the input exactly once: a permutation of the input, of equal
length, with no duplicate and no omission. -/
theorem c4_two_cycle_amended (tasks : List Task) (hnd : (idsOf tasks).Nodup)
    (a b : String) (htc : TwoCycle tasks a b) :
    detectCircularDependencies tasks ≠ []
    ∧ (topologicalSort tasks).Perm tasks
    ∧ (topologicalSort tasks).length = tasks.length := by
  have hperm := topologicalSort_perm tasks hnd
  exact ⟨detect_twoCycle_ne_nil tasks hnd htc, hperm, hperm.length_eq⟩

/-- **C4 (counterexample).** On four distinct-id tasks whose cycle
`C ↔ D` is detected first, the traversal leaves `C` and `D` on the
recursion stack; the later roots `A` and `B` — which form a two-task
cycle — each abort on their dependency `C` before exploring each other,
so *no* edge of the `A`–`B` cycle is reported, refuting the claim as
stated. -/
theorem c4_counterexample_cycle_edges_missed :
    TwoCycle c4tasks "A" "B"
    ∧ (idsOf c4tasks).Nodup
    ∧ edgeStr "A" "B" ∉ detectCircularDependencies c4tasks
    ∧ edgeStr "B" "A" ∉ detectCircularDependencies c4tasks
    ∧ detectCircularDependencies c4tasks
        = [edgeStr "D" "C", edgeStr "C" "D", edgeStr "A" "C", edgeStr "B" "C"] := by
  refine ⟨⟨by decide,
      ⟨mkTask "A" ["C", "B"] "pending", by decide, by decide, by decide⟩,
      ⟨mkTask "B" ["C", "A"] "pending", by decide, by decide, by decide⟩⟩,
    by decide, by decide, by decide, by decide⟩

/-- Witness for the amended C4 on the minimal two-task cycle. -/
theorem c4_witness :
    ((idsOf c4pair).Nodup ∧ TwoCycle c4pair "A" "B") ∧
    detectCircularDependencies c4pair ≠ []
    ∧ (topologicalSort c4pair).Perm c4pair
    ∧ (topologicalSort c4pair).length = c4pair.length := by
  have htc : TwoCycle c4pair "A" "B" := ⟨by decide,
    ⟨mkTask "A" ["B"] "pending", by decide, by decide, by decide⟩,
    ⟨mkTask "B" ["A"] "pending", by decide, by decide, by decide⟩⟩
  exact ⟨⟨by decide, htc⟩, c4_two_cycle_amended c4pair (by decide) "A" "B" htc⟩

end Traycer